import Mathlib

/-!
# Verification of the janus pipeline/state engine and sync engine

A shallow embedding, in Lean, of the parts of the `janus` dotfiles manager
that carry its correctness claims:

* the line splitter and hunk classifier of the synchronization (reverse
  merge) engine (`src/ops/sync.rs`),
* the dual `Vec`+`HashSet` deployment-state store (`src/state.rs`),
* the error-collection and fail-fast iteration strategies of the pipeline
  stage operations (`src/ops/generate.rs`, `src/ops/deploy.rs`),
* the atomic symlink-swap protocols of deploy and undeploy
  (`src/ops/deploy.rs`, `src/ops/undeploy.rs`) over an in-memory model of
  the filesystem mirroring the project's own `FakeFs` test double
  (`src/platform/fake_fs.rs`),
* orphan cleaning (`src/ops/clean.rs`).

Text is modelled as `List Char`; machine integers that cannot overflow in
context (line indices, lengths, permission modes) are modelled as `Nat`;
fallible operations return `Except`/`Option`.  Rust panics (out-of-bounds
slice indexing) are modelled by `Option.none`.
-/

namespace Janus

/-! ## Text and lines (`src/ops/sync.rs`)

`split_lines_inclusive` walks the characters of the text keeping a pending
current line (the span from `start` to the current index in the Rust
code); each `'\n'` closes the pending line (newline included), and a
nonempty trailing pending line is appended at the end.  `go` carries the
pending line in reverse for structural recursion, exactly mirroring the
index arithmetic of the source loop. -/

/-- Loop of `split_lines_inclusive`: `pend` is the reversed pending line. -/
def splitGo : List Char → List Char → List (List Char)
  | [], pend => if pend.isEmpty then [] else [pend.reverse]
  | c :: rest, pend =>
    if c = '\n' then (pend.reverse ++ [c]) :: splitGo rest []
    else splitGo rest (c :: pend)

/-- Embeds `split_lines_inclusive` (sync.rs:75-88): split text into lines,
keeping the newline character attached to each line. -/
def split_lines_inclusive (text : List Char) : List (List Char) :=
  splitGo text []

theorem splitGo_join (cs : List Char) :
    ∀ pend, (splitGo cs pend).flatten = pend.reverse ++ cs := by
  induction cs with
  | nil =>
    intro pend
    by_cases h : pend.isEmpty
    · simp [splitGo, h, List.isEmpty_iff.mp h]
    · simp [splitGo, h]
  | cons c rest ih =>
    intro pend
    by_cases h : c = '\n'
    · simp [splitGo, h, ih]
    · simp [splitGo, h, ih]

theorem splitGo_dropLast_newline (cs : List Char) :
    ∀ pend, ∀ l ∈ (splitGo cs pend).dropLast, l.getLast? = some '\n' := by
  induction cs with
  | nil =>
    intro pend l hl
    by_cases h : pend.isEmpty <;> simp [splitGo, h] at hl
  | cons c rest ih =>
    intro pend l hl
    by_cases h : c = '\n'
    · subst h
      simp only [splitGo, eq_self_iff_true, if_true] at hl
      rcases hrest : splitGo rest [] with _ | ⟨l₀, ls⟩
      · rw [hrest] at hl; simp at hl
      · rw [hrest, List.dropLast_cons₂] at hl
        rcases List.mem_cons.mp hl with h1 | h2
        · subst h1
          simp
        · have := ih [] l
          rw [hrest] at this
          exact this h2
    · simp only [splitGo, h, if_neg h] at hl
      exact ih (c :: pend) l hl

/-! ## Template-syntax detection and hunk classification (`src/ops/sync.rs`) -/

/-- The opening brace character of Tera template markers. -/
def obrace : Char := Char.ofNat 123

/-- Contiguous-substring check, the model of Rust `str::contains` for a
literal needle. -/
def containsSeq (needle : List Char) : List Char → Bool
  | [] => needle.isEmpty
  | c :: t => needle.isPrefixOf (c :: t) || containsSeq needle t

/-- Embeds `has_tera_syntax` (sync.rs:67-69): a line contains Tera template
syntax when one of the two-character markers (double brace, brace-percent,
brace-hash) occurs in it. -/
def has_tera_syntax (line : List Char) : Bool :=
  containsSeq [obrace, obrace] line || containsSeq [obrace, '%'] line ||
    containsSeq [obrace, '#'] line

/-- Embeds `similar::DiffOp`, the tagged diff operation variant consumed by
the merge walker.  Field order follows the Rust struct variants. -/
inductive DiffOp where
  | Equal (old_index new_index len : Nat)
  | Insert (old_index new_index new_len : Nat)
  | Delete (old_index old_len new_index : Nat)
  | Replace (old_index old_len new_index new_len : Nat)
deriving DecidableEq

/-- Whether a diff operation is the `Equal` variant (sync.rs:171). -/
def DiffOp.isEqual : DiffOp → Bool
  | .Equal _ _ _ => true
  | _ => false

/-- Embeds the `template_affected` set construction (sync.rs:153-162): for a
template entry, the indices of the source lines containing template syntax;
empty for non-template entries. -/
def template_affected (is_template : Bool) (source_lines : List (List Char)) :
    List Nat :=
  if is_template then
    (List.range source_lines.length).filter
      (fun i => has_tera_syntax (source_lines.getD i []))
  else []

/-- Result of `classify_hunk` (sync.rs:410-413); `note` renders the Rust
field carrying the unsafety explanation shown to the user. -/
structure HunkClassification where
  is_safe : Bool
  note : Option String
deriving DecidableEq

/-- Annotation attached to hunks overlapping template syntax. -/
def annTemplate : String :=
  "(!) Template syntax — applying would replace template expressions"

/-- Annotation attached to hunks where the source diverged from generated. -/
def annEdited : String :=
  "(!) Source was independently edited — applying would overwrite your changes"

/-- Embeds `classify_hunk` (sync.rs:415-448). -/
def classify_hunk (source_range gen_range : List (List Char))
    (old_index old_len : Nat) (tAffected : List Nat) (is_template : Bool) :
    HunkClassification :=
  let source_matches_generated : Bool := source_range == gen_range
  let has_template : Bool :=
    is_template &&
      (List.range' old_index old_len).any (fun i => tAffected.contains i)
  if source_matches_generated && !has_template then ⟨true, none⟩
  else if has_template then ⟨false, some annTemplate⟩
  else ⟨false, some annEdited⟩

/-- Models the Rust expression `(start..start+len).map(|i| lines[i])`
(sync.rs:227-237, 307-317): collect the indexed lines, `none` when an index
is out of bounds (in Rust this is a panic). -/
def sliceIdx (lines : List (List Char)) : Nat → Nat → Option (List (List Char))
  | _, 0 => some []
  | start, len + 1 =>
    match lines.get? start, sliceIdx lines (start + 1) len with
    | some l, some ls => some (l :: ls)
    | _, _ => none

theorem sliceIdx_eq_some_of_le (lines : List (List Char)) :
    ∀ n s, s + n ≤ lines.length →
      sliceIdx lines s n = some ((lines.drop s).take n) := by
  intro n
  induction n with
  | zero => intro s _; simp [sliceIdx]
  | succ m ih =>
    intro s hs
    have hlt : s < lines.length := by omega
    have hget : lines.get? s = some lines[s] := by
      simp [List.get?_eq_getElem?, List.getElem?_eq_getElem hlt]
    have hdrop : lines.drop s = lines[s] :: lines.drop (s + 1) :=
      List.drop_eq_getElem_cons hlt
    rw [sliceIdx, hget, ih (s + 1) (by omega)]
    simp only [hdrop, List.take_succ_cons]

theorem sliceIdx_bound (lines : List (List Char)) :
    ∀ n s r, sliceIdx lines s n = some r →
      ∀ i ∈ List.range' s n, i < lines.length := by
  intro n
  induction n with
  | zero => intro s r _ i hi; simp [List.range'] at hi
  | succ m ih =>
    intro s r h i hi
    rw [sliceIdx] at h
    rcases hg : lines.get? s with _ | l
    · rw [hg] at h; exact absurd h (by simp)
    · rcases hrec : sliceIdx lines (s + 1) m with _ | ls
      · rw [hg, hrec] at h; exact absurd h (by simp)
      · have hs : s < lines.length := (List.get?_eq_some.mp hg).choose
        have hi2 : i = s ∨ s + 1 ≤ i ∧ i < s + 1 + m := by
          simpa [List.range', List.mem_range'_1] using hi
        rcases hi2 with h1 | h2
        · omega
        · exact ih (s + 1) ls hrec i (List.mem_range'_1.mpr ⟨h2.1, h2.2⟩)

theorem sliceIdx_map (lines : List (List Char)) :
    ∀ n s r, sliceIdx lines s n = some r →
      r = (List.range' s n).map (fun i => lines.getD i []) := by
  intro n
  induction n with
  | zero => intro s r h; simp [sliceIdx] at h; simp [List.range', h.symm]
  | succ m ih =>
    intro s r h
    rw [sliceIdx] at h
    rcases hg : lines.get? s with _ | l
    · rw [hg] at h; exact absurd h (by simp)
    · rcases hrec : sliceIdx lines (s + 1) m with _ | ls
      · rw [hg, hrec] at h; exact absurd h (by simp)
      · rw [hg, hrec] at h
        have hr : r = l :: ls := by simpa using h.symm
        have hgd : lines[s]?.getD [] = l := by
          rw [← List.get?_eq_getElem?, hg]
          rfl
        subst hr
        rw [ih (s + 1) ls hrec]
        simp [List.range', List.getD_eq_getElem?_getD, hgd]

theorem classify_is_safe_eq (sr gr : List (List Char)) (oi ol : Nat)
    (ta : List Nat) (tmpl : Bool) :
    (classify_hunk sr gr oi ol ta tmpl).is_safe =
      ((sr == gr) &&
        !(tmpl && (List.range' oi ol).any fun i => ta.contains i)) := by
  simp only [classify_hunk]
  rcases hc : ((sr == gr) &&
      !(tmpl && (List.range' oi ol).any fun i => ta.contains i)) with _ | _
  · rw [if_neg (by simp [hc])]
    split <;> rfl
  · rw [if_pos (by simp [hc])]

theorem template_affected_mem (srcL : List (List Char)) (i : Nat) :
    i ∈ template_affected true srcL ↔
      i < srcL.length ∧ has_tera_syntax (srcL.getD i []) = true := by
  simp [template_affected, List.mem_filter, List.mem_range]

theorem marker_range_iff (srcL sr : List (List Char)) (oi ol : Nat)
    (hs : sliceIdx srcL oi ol = some sr) :
    (((List.range' oi ol).any fun i =>
        (template_affected true srcL).contains i) = true) ↔
      ∃ l ∈ sr, has_tera_syntax l = true := by
  have hmap := sliceIdx_map srcL ol oi sr hs
  have hbound := sliceIdx_bound srcL ol oi sr hs
  subst hmap
  rw [List.any_eq_true]
  constructor
  · rintro ⟨i, hi, hc⟩
    have hmem : i ∈ template_affected true srcL := by simpa using hc
    exact ⟨srcL.getD i [], List.mem_map_of_mem _ hi,
      ((template_affected_mem srcL i).mp hmem).2⟩
  · rintro ⟨l, hl, hm⟩
    obtain ⟨i, hi, rfl⟩ := List.mem_map.mp hl
    exact ⟨i, hi, by
      simpa using (template_affected_mem srcL i).mpr ⟨hbound i hi, hm⟩⟩

/-- Safety classification, restated: a `Delete`/`Replace` hunk is classified
safe exactly when its source range is byte-identical to its generated range
and, for a template entry, none of the source lines in the range contain a
template-syntax marker. -/
theorem classify_safe_iff (tmpl : Bool) (srcL : List (List Char))
    (oi ol : Nat) (sr gr : List (List Char))
    (hs : sliceIdx srcL oi ol = some sr) :
    ((classify_hunk sr gr oi ol (template_affected tmpl srcL) tmpl).is_safe
        = true) ↔
      (sr = gr ∧ (tmpl = true → ∀ l ∈ sr, has_tera_syntax l = false)) := by
  rw [classify_is_safe_eq]
  cases tmpl with
  | false =>
    simp [template_affected]
  | true =>
    simp only [Bool.and_eq_true, beq_iff_eq, Bool.not_eq_true', true_and,
      Bool.true_and]
    constructor
    · rintro ⟨h1, h2⟩
      refine ⟨h1, fun _ l hl => ?_⟩
      by_contra hm
      have hm2 : has_tera_syntax l = true := by
        cases h : has_tera_syntax l
        · exact absurd h hm
        · rfl
      have := (marker_range_iff srcL sr oi ol hs).mpr ⟨l, hl, hm2⟩
      rw [this] at h2
      exact absurd h2 (by simp)
    · rintro ⟨h1, h2⟩
      refine ⟨h1, ?_⟩
      by_contra hany
      have hany2 : ((List.range' oi ol).any fun i =>
          (template_affected true srcL).contains i) = true := by
        cases h : (List.range' oi ol).any fun i =>
            (template_affected true srcL).contains i
        · exact absurd h hany
        · rfl
      obtain ⟨l, hl, hm⟩ := (marker_range_iff srcL sr oi ol hs).mp hany2
      rw [h2 trivial l hl] at hm
      exact absurd hm (by simp)

/-! ## The merge walker of `sync_file` (sync.rs:186-397, `dry_run = false`)

The walker consumes the diff operations in order, building the output line
buffer, the `any_applied` flag, and — for verification — the list of hunks
presented to the user together with the default prompt index passed to
`prompter.select` (`0` = Apply, `1` = Skip).  `choose` models the
prompter's reply for each hunk number.  The result is `none` exactly when
the Rust code would panic on an out-of-bounds line index. -/

/-- One step of the walker per `DiffOp`, mirroring the `match *op` arms of
`sync_file`.  Returns `(output_lines, any_applied, presented hunks)`. -/
def sync_walk (tmpl : Bool) (srcL genL stgL : List (List Char))
    (choose : Nat → Nat) : List DiffOp → Nat →
    Option (List (List Char) × Bool × List (DiffOp × Nat))
  | [], _ => some ([], false, [])
  | op :: rest, hunkNum =>
    match op with
    | .Equal oi _ len =>
      -- sync.rs:192-197: copy source lines via iterator skip/take (total)
      match sync_walk tmpl srcL genL stgL choose rest hunkNum with
      | none => none
      | some (out, ap, ps) => some (((srcL.drop oi).take len) ++ out, ap, ps)
    | .Insert _ ni nl =>
      -- sync.rs:198-221: staged slice, prompt with default index 0
      match sliceIdx stgL ni nl with
      | none => none
      | some staged_range =>
        match sync_walk tmpl srcL genL stgL choose rest (hunkNum + 1) with
        | none => none
        | some (out, ap, ps) =>
          if choose (hunkNum + 1) = 0 then
            some (staged_range ++ out, true, (op, 0) :: ps)
          else some (out, ap, (op, 0) :: ps)
    | .Delete oi ol _ =>
      -- sync.rs:222-298: index source and generated ranges, classify
      match sliceIdx srcL oi ol, sliceIdx genL oi ol with
      | some source_range, some gen_range =>
        let c := classify_hunk source_range gen_range oi ol
          (template_affected tmpl srcL) tmpl
        let d := if c.is_safe then 0 else 1
        match sync_walk tmpl srcL genL stgL choose rest (hunkNum + 1) with
        | none => none
        | some (out, ap, ps) =>
          if choose (hunkNum + 1) = 0 then some (out, true, (op, d) :: ps)
          else some (source_range ++ out, ap, (op, d) :: ps)
      | _, _ => none
    | .Replace oi ol ni nl =>
      -- sync.rs:299-383: all three ranges, classify, prompt
      match sliceIdx srcL oi ol, sliceIdx genL oi ol, sliceIdx stgL ni nl with
      | some source_range, some gen_range, some staged_range =>
        let c := classify_hunk source_range gen_range oi ol
          (template_affected tmpl srcL) tmpl
        let d := if c.is_safe then 0 else 1
        match sync_walk tmpl srcL genL stgL choose rest (hunkNum + 1) with
        | none => none
        | some (out, ap, ps) =>
          if choose (hunkNum + 1) = 0 then
            some (staged_range ++ out, true, (op, d) :: ps)
          else some (source_range ++ out, ap, (op, d) :: ps)
      | _, _, _ => none

/-- Embeds `sync_file` (sync.rs:91-408) for `dry_run = false`, after the
three contents have been read.  `ops` stands for the operation list of
`similar::TextDiff::from_lines(generated, staged)`; theorems that need its
well-formedness state it as an explicit bound hypothesis.  The returned
value is the final content of the source file (`none` = panic). -/
def sync_file_m (tmpl : Bool) (source generated staged : List Char)
    (ops : List DiffOp) (choose : Nat → Nat) : Option (List Char) :=
  if generated = staged then some source
  else
    let srcL := split_lines_inclusive source
    let genL := split_lines_inclusive generated
    let stgL := split_lines_inclusive staged
    if tmpl ∧ srcL.length ≠ genL.length then some source
    else if (ops.filter (fun op => !op.isEqual)).length = 0 then some source
    else
      match sync_walk tmpl srcL genL stgL choose ops 0 with
      | none => none
      | some (out, ap, _) => if ap then some out.flatten else some source

theorem default_idx_iff (tmpl : Bool) (srcL : List (List Char))
    (oi ol : Nat) (sr gr : List (List Char))
    (hs : sliceIdx srcL oi ol = some sr) :
    ((if (classify_hunk sr gr oi ol (template_affected tmpl srcL) tmpl).is_safe
        then (0 : Nat) else 1) = 0) ↔
      (sr = gr ∧ (tmpl = true → ∀ l ∈ sr, has_tera_syntax l = false)) := by
  rw [← classify_safe_iff tmpl srcL oi ol sr gr hs]
  rcases h : (classify_hunk sr gr oi ol (template_affected tmpl srcL)
      tmpl).is_safe with _ | _
  · simp [h]
  · simp [h]

/-- C1 (amended): for every non-Equal hunk the walker presents, the default
prompt index is `0` (Apply) iff the hunk's source line range is
byte-identical to its generated line range and, for template entries only,
none of those source lines contain a template-syntax marker; an `Insert`
hunk (empty source range) always defaults to Apply.  For non-template
entries the marker condition is not applied (see the counterexample). -/
theorem c1_default_action_amended (tmpl : Bool)
    (srcL genL stgL : List (List Char)) (choose : Nat → Nat) :
    ∀ (ops : List DiffOp) (n : Nat) (out : List (List Char)) (ap : Bool)
      (ps : List (DiffOp × Nat)),
      sync_walk tmpl srcL genL stgL choose ops n = some (out, ap, ps) →
      ∀ op d, (op, d) ∈ ps →
        (∀ oi ni nl, op = .Insert oi ni nl → d = 0) ∧
        (∀ oi ol ni nl,
            op = .Delete oi ol ni ∨ op = .Replace oi ol ni nl →
          ∃ sr gr, sliceIdx srcL oi ol = some sr ∧
            sliceIdx genL oi ol = some gr ∧
            (d = 0 ↔ sr = gr ∧
              (tmpl = true → ∀ l ∈ sr, has_tera_syntax l = false))) := by
  intro ops
  induction ops with
  | nil =>
    intro n out ap ps hw op d hmem
    simp only [sync_walk, Option.some.injEq] at hw
    obtain ⟨-, -, hps⟩ : [] = out ∧ false = ap ∧ [] = ps := by simpa using hw
    rw [← hps] at hmem
    exact absurd hmem (by simp)
  | cons op0 rest ih =>
    intro n out ap ps hw op d hmem
    cases op0 with
    | Equal oi ni len =>
      simp only [sync_walk] at hw
      rcases hrec : sync_walk tmpl srcL genL stgL choose rest n
        with _ | ⟨out2, ap2, ps2⟩
      · rw [hrec] at hw; exact absurd hw (by simp)
      · rw [hrec] at hw
        dsimp only at hw
        obtain ⟨-, -, hps⟩ :
            (srcL.drop oi).take len ++ out2 = out ∧ ap2 = ap ∧ ps2 = ps := by
          simpa using hw
        rw [← hps] at hmem
        exact ih n out2 ap2 ps2 hrec op d hmem
    | Insert oi ni nl =>
      simp only [sync_walk] at hw
      rcases hsl : sliceIdx stgL ni nl with _ | str
      · rw [hsl] at hw; exact absurd hw (by simp)
      rw [hsl] at hw
      rcases hrec : sync_walk tmpl srcL genL stgL choose rest (n + 1)
        with _ | ⟨out2, ap2, ps2⟩
      · rw [hrec] at hw; exact absurd hw (by simp)
      rw [hrec] at hw
      dsimp only at hw
      have hps : ps = (DiffOp.Insert oi ni nl, 0) :: ps2 := by
        by_cases hch : choose (n + 1) = 0
        · rw [if_pos hch] at hw
          exact ((by simpa using hw :
            str ++ out2 = out ∧ true = ap ∧
              (DiffOp.Insert oi ni nl, 0) :: ps2 = ps).2.2).symm
        · rw [if_neg hch] at hw
          exact ((by simpa using hw :
            out2 = out ∧ ap2 = ap ∧
              (DiffOp.Insert oi ni nl, 0) :: ps2 = ps).2.2).symm
      rw [hps] at hmem
      rcases List.mem_cons.mp hmem with hhd | htl
      · injection hhd with hop hd
        subst hop
        subst hd
        refine ⟨fun _ _ _ _ => rfl, ?_⟩
        rintro oi2 ol2 ni2 nl2 (h2 | h2) <;> exact absurd h2 (by simp)
      · exact ih (n + 1) out2 ap2 ps2 hrec op d htl
    | Delete oi ol ni =>
      simp only [sync_walk] at hw
      rcases hs : sliceIdx srcL oi ol with _ | sr
      · rw [hs] at hw; exact absurd hw (by simp)
      rw [hs] at hw
      rcases hg : sliceIdx genL oi ol with _ | gr
      · rw [hg] at hw; exact absurd hw (by simp)
      rw [hg] at hw
      dsimp only at hw
      rcases hrec : sync_walk tmpl srcL genL stgL choose rest (n + 1)
        with _ | ⟨out2, ap2, ps2⟩
      · rw [hrec] at hw; exact absurd hw (by simp)
      rw [hrec] at hw
      dsimp only at hw
      have hps : ps = (DiffOp.Delete oi ol ni,
          if (classify_hunk sr gr oi ol (template_affected tmpl srcL)
            tmpl).is_safe then 0 else 1) :: ps2 := by
        by_cases hch : choose (n + 1) = 0
        · rw [if_pos hch] at hw
          exact ((by simpa using hw : out2 = out ∧ true = ap ∧
            (DiffOp.Delete oi ol ni,
              if (classify_hunk sr gr oi ol (template_affected tmpl srcL)
                tmpl).is_safe then 0 else 1) :: ps2 = ps).2.2).symm
        · rw [if_neg hch] at hw
          exact ((by simpa using hw : sr ++ out2 = out ∧ ap2 = ap ∧
            (DiffOp.Delete oi ol ni,
              if (classify_hunk sr gr oi ol (template_affected tmpl srcL)
                tmpl).is_safe then 0 else 1) :: ps2 = ps).2.2).symm
      rw [hps] at hmem
      rcases List.mem_cons.mp hmem with hhd | htl
      · injection hhd with hop hd
        subst hop
        subst hd
        refine ⟨fun _ _ _ h2 => absurd h2 (by simp), ?_⟩
        rintro oi2 ol2 ni2 nl2 (h2 | h2)
        · injection h2 with e1 e2 e3
          subst e1
          subst e2
          exact ⟨sr, gr, hs, hg, default_idx_iff tmpl srcL oi ol sr gr hs⟩
        · exact absurd h2 (by simp)
      · exact ih (n + 1) out2 ap2 ps2 hrec op d htl
    | Replace oi ol ni nl =>
      simp only [sync_walk] at hw
      rcases hs : sliceIdx srcL oi ol with _ | sr
      · rw [hs] at hw; exact absurd hw (by simp)
      rw [hs] at hw
      rcases hg : sliceIdx genL oi ol with _ | gr
      · rw [hg] at hw; exact absurd hw (by simp)
      rw [hg] at hw
      rcases hsl : sliceIdx stgL ni nl with _ | str
      · rw [hsl] at hw; exact absurd hw (by simp)
      rw [hsl] at hw
      dsimp only at hw
      rcases hrec : sync_walk tmpl srcL genL stgL choose rest (n + 1)
        with _ | ⟨out2, ap2, ps2⟩
      · rw [hrec] at hw; exact absurd hw (by simp)
      rw [hrec] at hw
      dsimp only at hw
      have hps : ps = (DiffOp.Replace oi ol ni nl,
          if (classify_hunk sr gr oi ol (template_affected tmpl srcL)
            tmpl).is_safe then 0 else 1) :: ps2 := by
        by_cases hch : choose (n + 1) = 0
        · rw [if_pos hch] at hw
          exact ((by simpa using hw : str ++ out2 = out ∧ true = ap ∧
            (DiffOp.Replace oi ol ni nl,
              if (classify_hunk sr gr oi ol (template_affected tmpl srcL)
                tmpl).is_safe then 0 else 1) :: ps2 = ps).2.2).symm
        · rw [if_neg hch] at hw
          exact ((by simpa using hw : sr ++ out2 = out ∧ ap2 = ap ∧
            (DiffOp.Replace oi ol ni nl,
              if (classify_hunk sr gr oi ol (template_affected tmpl srcL)
                tmpl).is_safe then 0 else 1) :: ps2 = ps).2.2).symm
      rw [hps] at hmem
      rcases List.mem_cons.mp hmem with hhd | htl
      · injection hhd with hop hd
        subst hop
        subst hd
        refine ⟨fun _ _ _ h2 => absurd h2 (by simp), ?_⟩
        rintro oi2 ol2 ni2 nl2 (h2 | h2)
        · exact absurd h2 (by simp)
        · injection h2 with e1 e2 e3 e4
          subst e1
          subst e2
          exact ⟨sr, gr, hs, hg, default_idx_iff tmpl srcL oi ol sr gr hs⟩
      · exact ih (n + 1) out2 ap2 ps2 hrec op d htl

theorem c1_default_action_amended_witness :
    ∃ sr gr, sliceIdx [['a', '\n']] 0 1 = some sr ∧
      sliceIdx [['a', '\n']] 0 1 = some gr ∧
      ((0 : Nat) = 0 ↔ sr = gr ∧
        (true = true → ∀ l ∈ sr, has_tera_syntax l = false)) :=
  (c1_default_action_amended true [['a', '\n']] [['a', '\n']] [['b', '\n']]
      (fun _ => 1) [.Replace 0 1 0 1] 0 [['a', '\n']] false
      [(.Replace 0 1 0 1, 0)] (by decide) (.Replace 0 1 0 1) 0
      (by decide)).2 0 1 0 1 (Or.inr rfl)

/-- C1 counterexample: for a non-template entry whose source line equals
the generated line but contains the double-brace marker, the walker
presents the Replace hunk with default index `0` (Apply) — the code checks
template markers only for template entries, so the claim's "for template
and non-template entries alike" fails on this input.  (`similar` produces
exactly this Replace operation when diffing the one-line generated text
against a different one-line staged text.) -/
theorem c1_marker_hunk_defaults_apply_nontemplate :
    sync_walk false [[obrace, obrace, 'v', '\n']]
        [[obrace, obrace, 'v', '\n']] [['n', '\n']] (fun _ => 1)
        [.Replace 0 1 0 1] 0 =
      some ([[obrace, obrace, 'v', '\n']], false, [(.Replace 0 1 0 1, 0)]) ∧
    has_tera_syntax [obrace, obrace, 'v', '\n'] = true := by
  decide

/-- C9: evaluation at the failing input.  For a non-template entry whose
source has fewer lines than generated (source `"a\n"`, generated
`"a\nb\n"`, staged `"a\n"`, whose diff is `[Equal 0 0 1, Delete 1 1 1]`),
`sync_file` indexes `source_lines[1]` out of bounds — the model returns
`none`, i.e. the Rust code panics; the template-entry guard
(`sync.rs:141-150`) would have skipped the same input (second conjunct). -/
theorem c9_nontemplate_delete_out_of_bounds :
    sync_file_m false ['a', '\n'] ['a', '\n', 'b', '\n'] ['a', '\n']
        [.Equal 0 0 1, .Delete 1 1 1] (fun _ => 0) = none ∧
    sync_file_m true ['a', '\n'] ['a', '\n', 'b', '\n'] ['a', '\n']
        [.Equal 0 0 1, .Delete 1 1 1] (fun _ => 0) = some ['a', '\n'] := by
  decide

/-- C10: `split_lines_inclusive` is a lossless line splitter: concatenating
its output in order reproduces the input text exactly, and every returned
line except possibly the last ends with a newline character. -/
theorem c10_split_lines_lossless (s : List Char) :
    (split_lines_inclusive s).flatten = s ∧
    ∀ l ∈ (split_lines_inclusive s).dropLast, l.getLast? = some '\n' :=
  ⟨by simpa using splitGo_join s [], splitGo_dropLast_newline s []⟩

theorem c10_split_lines_lossless_witness :
    (split_lines_inclusive ['a', '\n', 'b']).flatten = ['a', '\n', 'b'] ∧
    (['a', '\n'] : List Char).getLast? = some '\n' :=
  ⟨(c10_split_lines_lossless ['a', '\n', 'b']).1,
   (c10_split_lines_lossless ['a', '\n', 'b']).2 ['a', '\n'] (by decide)⟩

/-! ## The deployment-state store (`src/state.rs`)

`State` pairs the serialized vectors with `HashSet` indexes
(`#[serde(skip)]`), modelled as `Finset`s of keys.  `loadFrom` models
deserialization followed by `rebuild_indexes` (state.rs:71-94); an empty or
absent state file yields `loadFrom [] []`. -/

/-- Embeds `DeployedEntry` (state.rs:60-66). -/
structure DeployedEntry where
  src : List Char
  target : List Char
deriving DecidableEq

/-- Embeds `IgnoredEntry` (state.rs:50-57). -/
structure IgnoredEntry where
  path : List Char
  reason : List Char
deriving DecidableEq

/-- Embeds `State` (state.rs:29-48): the serialized vectors plus the two
skip-serialized lookup indexes. -/
structure State where
  ignored : List IgnoredEntry
  deployed : List DeployedEntry
  ignored_index : Finset (List Char)
  deployed_index : Finset (List Char)

/-- Embeds `State::load` (state.rs:76-94) after parsing: the deserialized
vectors with both indexes rebuilt from them (`rebuild_indexes`,
state.rs:71-74) before any lookup.  A missing state file gives
`loadFrom [] []` (the serde defaults). -/
def State.loadFrom (ign : List IgnoredEntry) (dep : List DeployedEntry) :
    State :=
  { ignored := ign, deployed := dep,
    ignored_index := (ign.map IgnoredEntry.path).toFinset,
    deployed_index := (dep.map DeployedEntry.src).toFinset }

/-- Embeds `State::is_ignored` (state.rs:128-131). -/
def State.is_ignored (st : State) (path : List Char) : Bool :=
  path ∈ st.ignored_index

/-- Embeds `State::is_deployed` (state.rs:133-136). -/
def State.is_deployed (st : State) (src : List Char) : Bool :=
  src ∈ st.deployed_index

/-- The `iter_mut().find(...)` update of `add_deployed` (state.rs:149-151):
set the target of the first entry whose `src` matches. -/
def updateFirstTarget : List DeployedEntry → List Char → List Char →
    List DeployedEntry
  | [], _, _ => []
  | e :: rest, src, t =>
    if e.src = src then { e with target := t } :: rest
    else e :: updateFirstTarget rest src t

/-- Embeds `State::add_deployed` (state.rs:145-152): insert into the index
and push when new, otherwise update the first matching entry's target. -/
def State.add_deployed (st : State) (src target : List Char) : State :=
  if src ∈ st.deployed_index then
    { st with deployed := updateFirstTarget st.deployed src target }
  else
    { st with deployed_index := insert src st.deployed_index,
              deployed := st.deployed ++ [⟨src, target⟩] }

/-- Embeds `State::remove_deployed` (state.rs:154-159): remove from the
index and retain only the other entries; no-op when absent. -/
def State.remove_deployed (st : State) (src : List Char) : State :=
  if src ∈ st.deployed_index then
    { st with deployed_index := st.deployed_index.erase src,
              deployed := st.deployed.filter (fun e => e.src ≠ src) }
  else st

/-- Embeds `State::add_ignored` (state.rs:138-143): insert into the index
and push when new; no-op when already present. -/
def State.add_ignored (st : State) (path reason : List Char) : State :=
  if path ∈ st.ignored_index then st
  else
    { st with ignored_index := insert path st.ignored_index,
              ignored := st.ignored ++ [⟨path, reason⟩] }

/-- Embeds `State::remove_ignored` (state.rs:161-167). -/
def State.remove_ignored (st : State) (path : List Char) : State :=
  if path ∈ st.ignored_index then
    { st with ignored_index := st.ignored_index.erase path,
              ignored := st.ignored.filter (fun e => e.path ≠ path) }
  else st

/-- One mutating call of the store's public interface. -/
inductive StateOp where
  | addDeployed (src target : List Char)
  | removeDeployed (src : List Char)
  | addIgnored (path reason : List Char)
  | removeIgnored (path : List Char)

/-- Apply one mutating call. -/
def State.applyOp (st : State) : StateOp → State
  | .addDeployed src target => st.add_deployed src target
  | .removeDeployed src => st.remove_deployed src
  | .addIgnored path reason => st.add_ignored path reason
  | .removeIgnored path => st.remove_ignored path

/-- Apply a sequence of mutating calls in order. -/
def State.applyOps (ops : List StateOp) (st : State) : State :=
  ops.foldl State.applyOp st

/-- The dual-index invariant: each `HashSet` index holds exactly the keys
of its backing vector. -/
def State.indexes_consistent (st : State) : Prop :=
  (∀ k, k ∈ st.deployed_index ↔ k ∈ st.deployed.map DeployedEntry.src) ∧
  (∀ k, k ∈ st.ignored_index ↔ k ∈ st.ignored.map IgnoredEntry.path)

theorem updateFirstTarget_map_src (l : List DeployedEntry)
    (src t : List Char) :
    (updateFirstTarget l src t).map DeployedEntry.src =
      l.map DeployedEntry.src := by
  induction l with
  | nil => rfl
  | cons e rest ih =>
    by_cases h : e.src = src
    · simp [updateFirstTarget, h]
    · simp [updateFirstTarget, h, ih]

theorem applyOp_preserves_consistent (st : State) (o : StateOp)
    (h : st.indexes_consistent) : (st.applyOp o).indexes_consistent := by
  obtain ⟨hd, hi⟩ := h
  cases o with
  | addDeployed src target =>
    by_cases hmem : src ∈ st.deployed_index
    · constructor
      · intro k
        simp only [State.applyOp, State.add_deployed, if_pos hmem,
          updateFirstTarget_map_src]
        exact hd k
      · intro k
        simp only [State.applyOp, State.add_deployed, if_pos hmem]
        exact hi k
    · constructor
      · intro k
        simp only [State.applyOp, State.add_deployed, if_neg hmem,
          Finset.mem_insert, List.map_append, List.mem_append]
        rw [hd k]
        simp [or_comm]
      · intro k
        simp only [State.applyOp, State.add_deployed, if_neg hmem]
        exact hi k
  | removeDeployed src =>
    by_cases hmem : src ∈ st.deployed_index
    · constructor
      · intro k
        simp only [State.applyOp, State.remove_deployed, if_pos hmem,
          Finset.mem_erase]
        constructor
        · rintro ⟨hne, hk⟩
          rcases List.mem_map.mp ((hd k).mp hk) with ⟨e, he, rfl⟩
          exact List.mem_map.mpr
            ⟨e, List.mem_filter.mpr ⟨he, by simpa using hne⟩, rfl⟩
        · intro hk
          rcases List.mem_map.mp hk with ⟨e, he, rfl⟩
          have h2 := List.mem_filter.mp he
          exact ⟨by simpa using h2.2,
            (hd e.src).mpr (List.mem_map.mpr ⟨e, h2.1, rfl⟩)⟩
      · intro k
        simp only [State.applyOp, State.remove_deployed, if_pos hmem]
        exact hi k
    · constructor
      · intro k
        simp only [State.applyOp, State.remove_deployed, if_neg hmem]
        exact hd k
      · intro k
        simp only [State.applyOp, State.remove_deployed, if_neg hmem]
        exact hi k
  | addIgnored path reason =>
    by_cases hmem : path ∈ st.ignored_index
    · constructor
      · intro k
        simp only [State.applyOp, State.add_ignored, if_pos hmem]
        exact hd k
      · intro k
        simp only [State.applyOp, State.add_ignored, if_pos hmem]
        exact hi k
    · constructor
      · intro k
        simp only [State.applyOp, State.add_ignored, if_neg hmem]
        exact hd k
      · intro k
        simp only [State.applyOp, State.add_ignored, if_neg hmem,
          Finset.mem_insert, List.map_append, List.mem_append]
        rw [hi k]
        simp [or_comm]
  | removeIgnored path =>
    by_cases hmem : path ∈ st.ignored_index
    · constructor
      · intro k
        simp only [State.applyOp, State.remove_ignored, if_pos hmem]
        exact hd k
      · intro k
        simp only [State.applyOp, State.remove_ignored, if_pos hmem,
          Finset.mem_erase]
        constructor
        · rintro ⟨hne, hk⟩
          rcases List.mem_map.mp ((hi k).mp hk) with ⟨e, he, rfl⟩
          exact List.mem_map.mpr
            ⟨e, List.mem_filter.mpr ⟨he, by simpa using hne⟩, rfl⟩
        · intro hk
          rcases List.mem_map.mp hk with ⟨e, he, rfl⟩
          have h2 := List.mem_filter.mp he
          exact ⟨by simpa using h2.2,
            (hi e.path).mpr (List.mem_map.mpr ⟨e, h2.1, rfl⟩)⟩
    · constructor
      · intro k
        simp only [State.applyOp, State.remove_ignored, if_neg hmem]
        exact hd k
      · intro k
        simp only [State.applyOp, State.remove_ignored, if_neg hmem]
        exact hi k

theorem loadFrom_consistent (ign : List IgnoredEntry)
    (dep : List DeployedEntry) : (State.loadFrom ign dep).indexes_consistent := by
  constructor <;> intro k <;> simp [State.loadFrom]

theorem applyOps_preserves_consistent (ops : List StateOp) :
    ∀ st : State, st.indexes_consistent →
      (State.applyOps ops st).indexes_consistent := by
  induction ops with
  | nil => intro st h; exact h
  | cons o rest ih =>
    intro st h
    exact ih _ (applyOp_preserves_consistent st o h)

/-- C3: for every sequence of `add_deployed`/`remove_deployed`/
`add_ignored`/`remove_ignored` calls starting from a loaded (or empty,
`ign = dep = []`) `State`, the `deployed_index` holds exactly the `src`
keys of the `deployed` vector and the `ignored_index` exactly the `path`
keys of the `ignored` vector; the indexes are rebuilt from the vectors at
load time, before any lookup. -/
theorem c3_state_index_consistency (ops : List StateOp)
    (ign : List IgnoredEntry) (dep : List DeployedEntry) :
    (State.applyOps ops (State.loadFrom ign dep)).indexes_consistent :=
  applyOps_preserves_consistent ops _ (loadFrom_consistent ign dep)

/-! ## Iteration strategies of the pipeline operations

The per-file loops of the stage operations have two shapes.  `collect_run`
embeds the error-collecting loop of `generate::run` (generate.rs:89-108;
`stage::run` and `clean::run` share the shape): a failing entry records an
`(identifier, error)` pair and iteration continues from the state left by
the previous successes.  `failfast_run` embeds the `?`-propagating loop of
`deploy::run` (deploy.rs:41-94) and `undeploy::run`: iteration stops at the
first failing entry.  Both are instrumented with the list of entries the
per-file step was invoked on. -/

/-- Error-collecting per-file loop: returns the final state, the collected
`(entry, error)` pairs in order, and the entries processed. -/
def collect_run {α σ ε : Type} (step : α → σ → Except ε σ) :
    List α → σ → σ × List (α × ε) × List α
  | [], s => (s, [], [])
  | e :: rest, s =>
    match step e s with
    | .ok s2 =>
      let r := collect_run step rest s2
      (r.1, r.2.1, e :: r.2.2)
    | .error err =>
      let r := collect_run step rest s
      (r.1, (e, err) :: r.2.1, e :: r.2.2)

/-- Aggregated result of an error-collecting run (generate.rs:110-125):
ok iff no per-file failure occurred, otherwise an aggregated error carrying
every collected `(identifier, error)` pair. -/
def collect_result {α σ ε : Type} (step : α → σ → Except ε σ)
    (es : List α) (s : σ) : Except (List (α × ε)) σ :=
  let r := collect_run step es s
  if r.2.1.isEmpty then .ok r.1 else .error r.2.1

/-- Fail-fast per-file loop: stop at the first failing entry; entries after
it are not touched. -/
def failfast_run {α σ ε : Type} (step : α → σ → Except ε σ) :
    List α → σ → Except ε σ × List α
  | [], s => (.ok s, [])
  | e :: rest, s =>
    match step e s with
    | .ok s2 =>
      let r := failfast_run step rest s2
      (r.1, e :: r.2)
    | .error err => (.error err, [e])

/-- Sequential composition of per-file steps, all succeeding. -/
def runAll {α σ ε : Type} (step : α → σ → Except ε σ) :
    List α → σ → Except ε σ
  | [], s => .ok s
  | e :: rest, s =>
    match step e s with
    | .ok s2 => runAll step rest s2
    | .error err => .error err

theorem collect_run_touches_all {α σ ε : Type} (step : α → σ → Except ε σ) :
    ∀ (es : List α) (s : σ), (collect_run step es s).2.2 = es := by
  intro es
  induction es with
  | nil => intro s; rfl
  | cons e rest ih =>
    intro s
    rcases h : step e s with s2 | err <;> simp [collect_run, h, ih]

theorem failfast_stops_at_first {α σ ε : Type} (step : α → σ → Except ε σ) :
    ∀ (es1 : List α) (e : α) (es2 : List α) (s0 s1 : σ) (err : ε),
      runAll step es1 s0 = .ok s1 → step e s1 = .error err →
      failfast_run step (es1 ++ e :: es2) s0 = (.error err, es1 ++ [e]) := by
  intro es1
  induction es1 with
  | nil =>
    intro e es2 s0 s1 err h1 h2
    have hs : s0 = s1 := by simpa [runAll] using h1
    subst hs
    simp [failfast_run, h2]
  | cons a rest1 ih =>
    intro e es2 s0 s1 err h1 h2
    rcases h : step a s0 with err2 | s2
    · rw [runAll, h] at h1
      exact absurd h1 (by simp)
    · rw [runAll, h] at h1
      have h1b : runAll step rest1 s2 = .ok s1 := h1
      simp [failfast_run, h, ih e es2 s2 s1 err h1b h2]

/-- C4: the two per-file iteration policies.  Error-collection (generate,
stage, clean): every entry in the selected list is processed even after
failures; a failing entry leaves the threaded state unchanged (successes
before and after it stay committed) and its `(identifier, error)` pair is
appended; the call as a whole succeeds iff no entry failed.  Fail-fast
(deploy, undeploy): after a successful prefix, the first failing entry
ends the run with its error and the entries after it are never touched. -/
theorem c4_error_policies (α σ ε : Type) (step : α → σ → Except ε σ)
    (es : List α) (s : σ) :
    (collect_run step es s).2.2 = es ∧
    ((∃ s2, collect_result step es s = .ok s2) ↔
      (collect_run step es s).2.1 = []) ∧
    (∀ (e : α) (rest : List α) (s2 : σ) (err : ε),
      step e s2 = .error err →
      collect_run step (e :: rest) s2 =
        ((collect_run step rest s2).1,
         (e, err) :: (collect_run step rest s2).2.1,
         e :: (collect_run step rest s2).2.2)) ∧
    (∀ (es1 : List α) (e : α) (es2 : List α) (s0 s1 : σ) (err : ε),
      runAll step es1 s0 = .ok s1 → step e s1 = .error err →
      failfast_run step (es1 ++ e :: es2) s0 = (.error err, es1 ++ [e])) := by
  refine ⟨collect_run_touches_all step es s, ?_, ?_, failfast_stops_at_first step⟩
  · unfold collect_result
    rcases h : (collect_run step es s).2.1 with _ | ⟨p, ps⟩
    · simp [h]
    · simp [h]
  · intro e rest s2 err h
    simp [collect_run, h]

theorem c4_error_policies_witness :
    failfast_run (fun (e s : Nat) =>
        if e = 0 then Except.error 7 else Except.ok (s + e))
      ([1] ++ 0 :: [2]) 0 = (Except.error 7, [1] ++ [0]) :=
  (c4_error_policies Nat Nat Nat
      (fun e s => if e = 0 then Except.error 7 else Except.ok (s + e))
      [] 0).2.2.2 [1] 0 [2] 0 1 7 rfl rfl

/-! ## In-memory filesystem model (`src/platform/fake_fs.rs`)

Paths are character lists; the store is an association list with unique
keys by construction (`Fs.set` replaces).  `resolveN` follows symlinks up
to 32 hops exactly as `FakeFs::resolve_path` (fake_fs.rs:143-154). -/

/-- Embeds `FakeEntry` (fake_fs.rs:17-23). -/
inductive FsEntry where
  | file (content : List Char) (mode : Nat)
  | symlink (target : List Char)
  | dir
deriving DecidableEq

/-- The path-to-entry map of `FakeFs`. -/
abbrev Fs := List (List Char × FsEntry)

/-- First-match association lookup (the `HashMap` get). -/
def Fs.lookup : Fs → List Char → Option FsEntry
  | [], _ => none
  | (q, e) :: rest, p => if q = p then some e else Fs.lookup rest p

/-- Remove a key (the `HashMap` remove). -/
def Fs.removePath (fs : Fs) (p : List Char) : Fs :=
  fs.filter (fun qe => qe.1 ≠ p)

/-- Insert/replace a key (the `HashMap` insert). -/
def Fs.set (fs : Fs) (p : List Char) (e : FsEntry) : Fs :=
  (p, e) :: fs.removePath p

/-- Embeds `FakeFs::resolve_path` (fake_fs.rs:143-154): follow symlink
entries up to the hop bound, stopping at the first non-symlink. -/
def Fs.resolveN (fs : Fs) : Nat → List Char → List Char
  | 0, p => p
  | n + 1, p =>
    match fs.lookup p with
    | some (.symlink t) => fs.resolveN n t
    | _ => p

/-- Resolution with the 32-hop bound of the source. -/
def Fs.resolve (fs : Fs) (p : List Char) : List Char := fs.resolveN 32 p

/-- Embeds `FakeFs::exists` (fake_fs.rs:305-308). -/
def Fs.existsP (fs : Fs) (p : List Char) : Bool :=
  (fs.lookup (fs.resolve p)).isSome

/-- Embeds `FakeFs::is_symlink` (fake_fs.rs:310-315): unresolved lookup. -/
def Fs.isSymlinkP (fs : Fs) (p : List Char) : Bool :=
  match fs.lookup p with
  | some (.symlink _) => true
  | _ => false

/-- Embeds `FakeFs::read` (fake_fs.rs:168-176): content and mode of the
resolved file, `none` for non-files. -/
def Fs.readFile (fs : Fs) (p : List Char) : Option (List Char × Nat) :=
  match fs.lookup (fs.resolve p) with
  | some (.file c m) => some (c, m)
  | _ => none

/-- Embeds `FakeFs::copy` (fake_fs.rs:201-213): read the resolved source,
insert at the (unresolved) destination; error on a non-file source. -/
def Fs.copyP (fs : Fs) (src dst : List Char) : Option Fs :=
  match fs.readFile src with
  | some (c, m) => some (fs.set dst (.file c m))
  | none => none

/-- Embeds `FakeFs::remove_file` (fake_fs.rs:215-225): unresolved lookup;
removes files and symlinks, errors on directories and missing paths. -/
def Fs.removeFileP (fs : Fs) (p : List Char) : Option Fs :=
  match fs.lookup p with
  | some (.file _ _) => some (fs.removePath p)
  | some (.symlink _) => some (fs.removePath p)
  | _ => none

/-- Embeds `FakeFs::rename` (fake_fs.rs:244-253): move the unresolved
entry to the destination key, error if the source key is absent. -/
def Fs.renameP (fs : Fs) (src dst : List Char) : Option Fs :=
  match fs.lookup src with
  | some e => some ((fs.removePath src).set dst e)
  | none => none

/-- Embeds `FakeFs::symlink` (fake_fs.rs:287-295): create or overwrite the
link entry; infallible. -/
def Fs.symlinkP (fs : Fs) (original link : List Char) : Fs :=
  fs.set link (.symlink original)

/-- Embeds `FakeFs::write` (fake_fs.rs:178-199) with `fail_writes` off:
write at the resolved path, preserving an existing file's mode. -/
def Fs.writeP (fs : Fs) (p contents : List Char) : Fs :=
  let resolved := fs.resolve p
  let mode := match fs.lookup resolved with
    | some (.file _ m) => m
    | _ => 420
  fs.set resolved (.file contents mode)

/-! ## Path manipulation (Rust `std::path::Path`)

`Path::with_extension` REPLACES the file name's extension: the extension
is the portion after the last dot of the file name, where a name whose
only dot is the leading character (`".bashrc"`) has none.  `deploy.rs:123`
and `undeploy.rs:168` call `with_extension(".janus.tmp")` — note the
argument's leading dot — and `backup_path_for` (deploy.rs:188-196) calls
`with_extension(format!("{}.janus.bak", extension_or_default))`. -/

/-- Scan of the reversed file name for the last dot: returns the reversed
extension and reversed stem when the name has an extension in Rust's sense
(a dot that is neither absent nor the leading character). -/
def splitExtRev : List Char → Option (List Char × List Char)
  | [] => none
  | c :: rest =>
    if c = '.' then if rest.isEmpty then none else some ([], rest)
    else
      match splitExtRev rest with
      | some (extR, stemR) => some (c :: extR, stemR)
      | none => none

/-- Split a file name into Rust's `file_stem` and `extension`. -/
def splitExt (name : List Char) : List Char × Option (List Char) :=
  match splitExtRev name.reverse with
  | none => (name, none)
  | some (extR, stemR) => (stemR.reverse, some extR.reverse)

/-- Scan of the reversed path for the last slash: reversed file name and
reversed parent part (the parent keeps its trailing slash). -/
def splitParentRev : List Char → List Char × List Char
  | [] => ([], [])
  | c :: rest =>
    if c = '/' then ([], c :: rest)
    else
      let r := splitParentRev rest
      (c :: r.1, r.2)

/-- Split a path into the parent part (up to and including the last slash)
and the file name. -/
def splitParent (p : List Char) : List Char × List Char :=
  ((splitParentRev p.reverse).2.reverse, (splitParentRev p.reverse).1.reverse)

/-- Embeds `Path::with_extension`: parent ++ stem, then a dot and the new
extension when it is nonempty. -/
def with_extension (p ext : List Char) : List Char :=
  (splitParent p).1 ++ (splitExt (splitParent p).2).1 ++
    (if ext.isEmpty then [] else '.' :: ext)

/-- The literal extension argument `".janus.tmp"` of the temp-path
computation (deploy.rs:123, undeploy.rs:168). -/
def tmpExt : List Char := ['.', 'j', 'a', 'n', 'u', 's', '.', 't', 'm', 'p']

/-- The literal `".janus.bak"` suffix of backup names (deploy.rs:190). -/
def bakSuffix : List Char := ['.', 'j', 'a', 'n', 'u', 's', '.', 'b', 'a', 'k']

/-- Embeds `backup_path_for` (deploy.rs:188-196): replace the extension by
`<original-extension>.janus.bak`. -/
def backup_path_for (target : List Char) : List Char :=
  with_extension target
    (((splitExt (splitParent target).2).2.getD []) ++ bakSuffix)

/-- Embeds `Path::join` for a relative right operand. -/
def pjoin (a b : List Char) : List Char := a ++ '/' :: b

theorem splitExtRev_spec :
    ∀ (rname extR stemR : List Char),
      splitExtRev rname = some (extR, stemR) →
      rname = extR ++ '.' :: stemR ∧ '.' ∉ extR ∧ stemR ≠ [] := by
  intro rname
  induction rname with
  | nil => intro extR stemR h; exact absurd h (by simp [splitExtRev])
  | cons c rest ih =>
    intro extR stemR h
    by_cases hc : c = '.'
    · subst hc
      rw [splitExtRev, if_pos rfl] at h
      rcases he : rest.isEmpty with _ | _
      · rw [he] at h
        obtain ⟨h1, h2⟩ : ([] : List Char) = extR ∧ rest = stemR := by
          simpa using h
        subst h1
        subst h2
        exact ⟨rfl, by simp, by simpa using he⟩
      · rw [he] at h
        exact absurd h (by simp)
    · rw [splitExtRev, if_neg hc] at h
      rcases hrec : splitExtRev rest with _ | ⟨e2, s2⟩
      · rw [hrec] at h; exact absurd h (by simp)
      · rw [hrec] at h
        obtain ⟨h1, h2⟩ : c :: e2 = extR ∧ s2 = stemR := by simpa using h
        obtain ⟨ha, hb, hcne⟩ := ih e2 s2 hrec
        refine ⟨?_, ?_, ?_⟩
        · rw [← h1, ← h2, List.cons_append, ← ha]
        · rw [← h1]
          intro hmem
          rcases List.mem_cons.mp hmem with h3 | h3
          · exact hc h3.symm
          · exact hb h3
        · rw [← h2]
          exact hcne

theorem splitExt_stem_of_none (name : List Char)
    (h : (splitExt name).2 = none) : (splitExt name).1 = name := by
  unfold splitExt at h ⊢
  rcases hrev : splitExtRev name.reverse with _ | ⟨extR, stemR⟩
  · rfl
  · rw [hrev] at h
    exact absurd h (by simp)

theorem splitExt_spec (name stem e : List Char)
    (h : splitExt name = (stem, some e)) :
    name = stem ++ '.' :: e ∧ '.' ∉ e := by
  unfold splitExt at h
  rcases hrev : splitExtRev name.reverse with _ | ⟨extR, stemR⟩
  · rw [hrev] at h; exact absurd h (by simp)
  · rw [hrev] at h
    obtain ⟨h1, h2⟩ : stemR.reverse = stem ∧ extR.reverse = e := by simpa using h
    obtain ⟨ha, hb, -⟩ := splitExtRev_spec name.reverse extR stemR hrev
    constructor
    · have hp : name = name.reverse.reverse := (List.reverse_reverse name).symm
      rw [hp, ha, ← h1, ← h2]
      simp
    · intro hmem
      rw [← h2] at hmem
      exact hb (List.mem_reverse.mp hmem)

theorem splitParentRev_spec :
    ∀ (rp : List Char),
      rp = (splitParentRev rp).1 ++ (splitParentRev rp).2 ∧
      '/' ∉ (splitParentRev rp).1 := by
  intro rp
  induction rp with
  | nil => exact ⟨rfl, by simp [splitParentRev]⟩
  | cons c rest ih =>
    by_cases hc : c = '/'
    · subst hc
      rw [splitParentRev]
      simp
    · rw [splitParentRev]
      simp only [if_neg hc]
      obtain ⟨ha, hb⟩ := ih
      constructor
      · rw [List.cons_append, ← ha]
      · intro hmem
        rcases List.mem_cons.mp hmem with h3 | h3
        · exact hc h3.symm
        · exact hb h3

theorem splitParent_spec (p : List Char) :
    (splitParent p).1 ++ (splitParent p).2 = p ∧
    ∀ c ∈ (splitParent p).2, c ≠ '/' := by
  obtain ⟨ha, hb⟩ := splitParentRev_spec p.reverse
  constructor
  · unfold splitParent
    have hp : p = p.reverse.reverse := (List.reverse_reverse p).symm
    conv_rhs => rw [hp, ha]
    simp
  · intro c hc hceq
    subst hceq
    unfold splitParent at hc
    exact hb (List.mem_reverse.mp hc)

theorem with_extension_decomp (p ext : List Char) (h : ext ≠ []) :
    with_extension p ext =
      (splitParent p).1 ++ (splitExt (splitParent p).2).1 ++ '.' :: ext := by
  unfold with_extension
  rw [if_neg (by simpa using h)]

/-- The extension-replacing `with_extension` never returns the path itself
when the new extension contains a dot (as `".janus.tmp"` does): a genuine
extension can not contain a dot. -/
theorem with_extension_dotarg_ne_self (p ext : List Char)
    (hne : ext ≠ []) (hdot : '.' ∈ ext) : with_extension p ext ≠ p := by
  intro heq
  rw [with_extension_decomp p ext hne] at heq
  have hp := (splitParent_spec p).1
  have heq2 : (splitExt (splitParent p).2).1 ++ '.' :: ext =
      (splitParent p).2 := by
    have hboth : (splitParent p).1 ++
        ((splitExt (splitParent p).2).1 ++ '.' :: ext) =
        (splitParent p).1 ++ (splitParent p).2 := by
      rw [← List.append_assoc, heq, hp]
    exact List.append_cancel_left hboth
  rcases hse : (splitExt (splitParent p).2).2 with _ | e
  · have hstem := splitExt_stem_of_none (splitParent p).2 hse
    rw [hstem] at heq2
    have hlen := congrArg List.length heq2
    simp at hlen
  · have hpair : splitExt (splitParent p).2 =
        ((splitExt (splitParent p).2).1, some e) := by
      rw [← hse]
    obtain ⟨hname, hnd⟩ := splitExt_spec (splitParent p).2 _ e hpair
    have h3 : (splitExt (splitParent p).2).1 ++ '.' :: ext =
        (splitExt (splitParent p).2).1 ++ '.' :: e := heq2.trans hname
    have h4 := List.append_cancel_left h3
    injection h4 with _ h5
    exact hnd (h5 ▸ hdot)

/-- The temp path replaces the extension but never equals the target. -/
theorem temp_path_ne_target (p : List Char) : with_extension p tmpExt ≠ p :=
  with_extension_dotarg_ne_self p tmpExt (by simp [tmpExt]) (by simp [tmpExt])

/-- The backup path never equals the target. -/
theorem backup_path_ne_self (p : List Char) : backup_path_for p ≠ p := by
  unfold backup_path_for
  apply with_extension_dotarg_ne_self
  · simp [bakSuffix]
  · simp [bakSuffix]

/-- The backup path never equals the temp path. -/
theorem backup_path_ne_temp (p : List Char) :
    backup_path_for p ≠ with_extension p tmpExt := by
  unfold backup_path_for
  intro heq
  rw [with_extension_decomp p _ (by simp [bakSuffix]),
    with_extension_decomp p tmpExt (by simp [tmpExt])] at heq
  have h2 : (splitExt (splitParent p).2).2.getD [] ++ bakSuffix = tmpExt := by
    have h1 := List.append_cancel_left heq
    injection h1 with _ h3
  have hlen := congrArg List.length h2
  simp [bakSuffix, tmpExt] at hlen
  rw [hlen] at h2
  simp [bakSuffix, tmpExt] at h2

theorem Fs.lookup_removePath (fs : Fs) (p q : List Char) :
    Fs.lookup (Fs.removePath fs p) q = if p = q then none else Fs.lookup fs q := by
  induction fs with
  | nil => simp [Fs.removePath, Fs.lookup]
  | cons a rest ih =>
    obtain ⟨ak, ae⟩ := a
    by_cases hap : ak = p
    · have h1 : Fs.removePath ((ak, ae) :: rest) p = Fs.removePath rest p := by
        simp [Fs.removePath, hap]
      rw [h1, ih]
      by_cases hpq : p = q
      · simp [hpq]
      · rw [if_neg hpq, if_neg hpq, Fs.lookup,
          if_neg (fun haq => hpq (hap.symm.trans haq))]
    · have h1 : Fs.removePath ((ak, ae) :: rest) p =
          (ak, ae) :: Fs.removePath rest p := by
        simp [Fs.removePath, hap]
      rw [h1]
      by_cases haq : ak = q
      · rw [Fs.lookup, if_pos haq, Fs.lookup, if_pos haq,
          if_neg (fun hpq => hap (haq.trans hpq.symm))]
      · rw [Fs.lookup, if_neg haq, Fs.lookup, if_neg haq, ih]

theorem Fs.lookup_set (fs : Fs) (p q : List Char) (e : FsEntry) :
    Fs.lookup (Fs.set fs p e) q = if p = q then some e else Fs.lookup fs q := by
  unfold Fs.set
  rw [Fs.lookup]
  by_cases hpq : p = q
  · rw [if_pos hpq, if_pos hpq]
  · rw [if_neg hpq, if_neg hpq, Fs.lookup_removePath, if_neg hpq]

/-! ## Atomic deploy / undeploy protocols (`src/ops/deploy.rs`,
`src/ops/undeploy.rs`, `atomic-deploy` feature)

Each error constructor carries the path named by the `with_context`
message attached at that failure site in the source.  `FailCfg` injects
OS-level failures the in-memory model cannot produce on its own: the
spec's "rename step simulated to fail" and a failing best-effort temp
cleanup. -/

/-- The error contexts of the protocols, each carrying the path its
message names. -/
inductive OpError where
  | backupFailed (p : List Char)
  | removeStaleTemp (p : List Char)
  | atomicReplace (p : List Char)
  | copyTempFailed (p : List Char)
  | atomicReplaceSymlink (p : List Char)
  | removeSymlink (p : List Char)
  | writeFailed (p : List Char)
deriving DecidableEq

/-- Failure injection: `renameFails` makes the atomic rename fail;
`removeTempFails` makes the best-effort temp cleanup fail. -/
structure FailCfg where
  renameFails : Bool
  removeTempFails : Bool

/-- No injected failures. -/
def noFail : FailCfg := ⟨false, false⟩

/-- The `let _ = fs.remove_file(&temp_path)` cleanup inside the failure
context closures (deploy.rs:139, undeploy.rs:183): best-effort, any error
discarded. -/
def cleanupTemp (fs : Fs) (temp : List Char) (removeFails : Bool) : Fs :=
  if removeFails then fs
  else
    match fs.removeFileP temp with
    | some fs2 => fs2
    | none => fs

/-- Embeds `is_janus_symlink` (ops/mod.rs:25-33 and undeploy.rs:20-28; the
`is_symlink_to` check of clean.rs:246-251 has identical semantics over the
model): `target` is a symlink entry whose destination equals `expected`. -/
def is_janus_symlink (fs : Fs) (target expected : List Char) : Bool :=
  match fs.lookup target with
  | some (.symlink t) => t = expected
  | _ => false

/-- Embeds the atomic `deploy_symlink` (deploy.rs:104-144): optional
backup copy, stale-temp removal, temp symlink creation at
`with_extension(target, ".janus.tmp")`, then a single atomic rename over
the target.  Returns the propagated error and the resulting filesystem
(mutations before the failure persist, as in the source). -/
def deploy_symlink_m (fs0 : Fs) (staged_path target_path : List Char)
    (force : Bool) (inj : FailCfg) : Except OpError Unit × Fs :=
  let exists0 := fs0.existsP target_path || fs0.isSymlinkP target_path
  let backupStep : Option Fs :=
    if exists0 && !force && !is_janus_symlink fs0 target_path staged_path
    then Fs.copyP fs0 target_path (backup_path_for target_path)
    else some fs0
  match backupStep with
  | none => (.error (.backupFailed target_path), fs0)
  | some fs1 =>
    let temp := with_extension target_path tmpExt
    let staleStep : Option Fs :=
      if fs1.existsP temp || fs1.isSymlinkP temp then fs1.removeFileP temp
      else some fs1
    match staleStep with
    | none => (.error (.removeStaleTemp temp), fs1)
    | some fs2 =>
      let fs3 := fs2.symlinkP staged_path temp
      match (if inj.renameFails then none
             else fs3.renameP temp target_path) with
      | none =>
        (.error (.atomicReplace target_path),
         cleanupTemp fs3 temp inj.removeTempFails)
      | some fs4 => (.ok (), fs4)

/-- Embeds the atomic `undeploy_with_copy` (undeploy.rs:166-191):
stale-temp removal, copy of the staged content to the temp path, then a
single atomic rename over the symlink. -/
def undeploy_with_copy_m (fs0 : Fs) (staged_path target_path : List Char)
    (inj : FailCfg) : Except OpError Unit × Fs :=
  let temp := with_extension target_path tmpExt
  let staleStep : Option Fs :=
    if fs0.existsP temp || fs0.isSymlinkP temp then fs0.removeFileP temp
    else some fs0
  match staleStep with
  | none => (.error (.removeStaleTemp temp), fs0)
  | some fs1 =>
    match fs1.copyP staged_path temp with
    | none => (.error (.copyTempFailed temp), fs1)
    | some fs2 =>
      match (if inj.renameFails then none
             else fs2.renameP temp target_path) with
      | none =>
        (.error (.atomicReplaceSymlink target_path),
         cleanupTemp fs2 temp inj.removeTempFails)
      | some fs3 => (.ok (), fs3)

theorem copyP_eq_some (fs : Fs) (src dst : List Char) (fs2 : Fs)
    (h : Fs.copyP fs src dst = some fs2) :
    ∃ c m, Fs.readFile fs src = some (c, m) ∧
      fs2 = Fs.set fs dst (.file c m) := by
  unfold Fs.copyP at h
  rcases hr : fs.readFile src with _ | ⟨c, m⟩
  · rw [hr] at h; exact absurd h (by simp)
  · rw [hr] at h
    exact ⟨c, m, rfl, by simpa using h.symm⟩

theorem removeFileP_eq_some (fs : Fs) (p : List Char) (fs2 : Fs)
    (h : Fs.removeFileP fs p = some fs2) : fs2 = Fs.removePath fs p := by
  unfold Fs.removeFileP at h
  rcases hl : fs.lookup p with _ | e
  · rw [hl] at h; exact absurd h (by simp)
  · rw [hl] at h
    cases e with
    | file c m => simpa using h.symm
    | symlink t => simpa using h.symm
    | dir => exact absurd h (by simp)

theorem renameP_eq_some (fs : Fs) (src dst : List Char) (fs2 : Fs)
    (h : Fs.renameP fs src dst = some fs2) :
    ∃ e, fs.lookup src = some e ∧
      fs2 = Fs.set (Fs.removePath fs src) dst e := by
  unfold Fs.renameP at h
  rcases hl : fs.lookup src with _ | e
  · rw [hl] at h; exact absurd h (by simp)
  · rw [hl] at h
    exact ⟨e, rfl, by simpa using h.symm⟩

theorem cleanupTemp_lookup_other (fs : Fs) (temp q : List Char) (rmf : Bool)
    (hq : temp ≠ q) :
    Fs.lookup (cleanupTemp fs temp rmf) q = Fs.lookup fs q := by
  unfold cleanupTemp
  rcases rmf with _ | _
  · rcases hrm : fs.removeFileP temp with _ | fs2
    · simp [hrm]
    · simp [hrm, removeFileP_eq_some fs temp fs2 hrm,
        Fs.lookup_removePath, hq]
  · simp

theorem cleanupTemp_removed (fs : Fs) (temp : List Char) (fs2 : Fs)
    (h : Fs.removeFileP fs temp = some fs2) :
    Fs.lookup (cleanupTemp fs temp false) temp = none := by
  unfold cleanupTemp
  simp [h, removeFileP_eq_some fs temp fs2 h, Fs.lookup_removePath]

theorem deploy_rename_failure_frame (fs0 : Fs) (staged target : List Char)
    (force : Bool) (inj : FailCfg) (fsR : Fs)
    (h : deploy_symlink_m fs0 staged target force inj =
      (.error (.atomicReplace target), fsR)) :
    Fs.lookup fsR target = Fs.lookup fs0 target ∧
    (inj.removeTempFails = false →
      Fs.lookup fsR (with_extension target tmpExt) = none) := by
  have htne := temp_path_ne_target target
  have hbne := backup_path_ne_self target
  simp only [deploy_symlink_m] at h
  rcases hb : (if (fs0.existsP target || fs0.isSymlinkP target) && !force &&
        !is_janus_symlink fs0 target staged
      then Fs.copyP fs0 target (backup_path_for target)
      else some fs0) with _ | fs1
  · rw [hb] at h
    dsimp only at h
    simp at h
  · rw [hb] at h
    dsimp only at h
    rcases hs : (if fs1.existsP (with_extension target tmpExt) ||
          fs1.isSymlinkP (with_extension target tmpExt)
        then fs1.removeFileP (with_extension target tmpExt)
        else some fs1) with _ | fs2
    · rw [hs] at h
      dsimp only at h
      simp at h
    · rw [hs] at h
      dsimp only at h
      rcases hren : (if inj.renameFails then none
          else Fs.renameP (Fs.symlinkP fs2 staged
            (with_extension target tmpExt))
            (with_extension target tmpExt) target) with _ | fs4
      · rw [hren] at h
        dsimp only at h
        injection h with h1 h2
        subst h2
        have hl1 : Fs.lookup fs1 target = Fs.lookup fs0 target := by
          by_cases hc : ((fs0.existsP target || fs0.isSymlinkP target) &&
              !force && !is_janus_symlink fs0 target staged) = true
          · rw [if_pos hc] at hb
            obtain ⟨c, m, -, rfl⟩ := copyP_eq_some fs0 target
              (backup_path_for target) fs1 hb
            rw [Fs.lookup_set, if_neg hbne]
          · rw [if_neg hc] at hb
            rw [(by simpa using hb : fs0 = fs1)]
        have hl2 : Fs.lookup fs2 target = Fs.lookup fs1 target := by
          by_cases hc : (fs1.existsP (with_extension target tmpExt) ||
              fs1.isSymlinkP (with_extension target tmpExt)) = true
          · rw [if_pos hc] at hs
            rw [removeFileP_eq_some fs1 _ fs2 hs, Fs.lookup_removePath,
              if_neg htne]
          · rw [if_neg hc] at hs
            rw [(by simpa using hs : fs1 = fs2)]
        constructor
        · rw [cleanupTemp_lookup_other _ _ _ _ htne, Fs.symlinkP,
            Fs.lookup_set, if_neg htne, hl2, hl1]
        · intro hrmf
          rw [hrmf]
          apply cleanupTemp_removed _ _
            (Fs.removePath (Fs.symlinkP fs2 staged
              (with_extension target tmpExt)) (with_extension target tmpExt))
          unfold Fs.removeFileP
          rw [Fs.symlinkP, Fs.lookup_set, if_pos rfl]
      · rw [hren] at h
        dsimp only at h
        simp at h

theorem undeploy_rename_failure_frame (fs0 : Fs) (staged target : List Char)
    (inj : FailCfg) (fsR : Fs)
    (h : undeploy_with_copy_m fs0 staged target inj =
      (.error (.atomicReplaceSymlink target), fsR)) :
    Fs.lookup fsR target = Fs.lookup fs0 target ∧
    (inj.removeTempFails = false →
      Fs.lookup fsR (with_extension target tmpExt) = none) := by
  have htne := temp_path_ne_target target
  simp only [undeploy_with_copy_m] at h
  rcases hs : (if fs0.existsP (with_extension target tmpExt) ||
        fs0.isSymlinkP (with_extension target tmpExt)
      then fs0.removeFileP (with_extension target tmpExt)
      else some fs0) with _ | fs1
  · rw [hs] at h
    dsimp only at h
    simp at h
  · rw [hs] at h
    dsimp only at h
    rcases hcp : Fs.copyP fs1 staged (with_extension target tmpExt)
        with _ | fs2
    · rw [hcp] at h
      dsimp only at h
      simp at h
    · rw [hcp] at h
      dsimp only at h
      rcases hren : (if inj.renameFails then none
          else Fs.renameP fs2 (with_extension target tmpExt) target)
          with _ | fs3
      · rw [hren] at h
        dsimp only at h
        injection h with h1 h2
        subst h2
        have hl1 : Fs.lookup fs1 target = Fs.lookup fs0 target := by
          by_cases hc : (fs0.existsP (with_extension target tmpExt) ||
              fs0.isSymlinkP (with_extension target tmpExt)) = true
          · rw [if_pos hc] at hs
            rw [removeFileP_eq_some fs0 _ fs1 hs, Fs.lookup_removePath,
              if_neg htne]
          · rw [if_neg hc] at hs
            rw [(by simpa using hs : fs0 = fs1)]
        obtain ⟨c, m, -, rfl⟩ := copyP_eq_some fs1 staged
          (with_extension target tmpExt) fs2 hcp
        constructor
        · rw [cleanupTemp_lookup_other _ _ _ _ htne, Fs.lookup_set,
            if_neg htne, hl1]
        · intro hrmf
          rw [hrmf]
          apply cleanupTemp_removed _ _
            (Fs.removePath (Fs.set fs1 (with_extension target tmpExt)
              (.file c m)) (with_extension target tmpExt))
          unfold Fs.removeFileP
          rw [Fs.lookup_set, if_pos rfl]
      · rw [hren] at h
        dsimp only at h
        simp at h

theorem splitParentRev_append (l1 l2 : List Char) (h : '/' ∉ l1) :
    splitParentRev (l1 ++ l2) =
      (l1 ++ (splitParentRev l2).1, (splitParentRev l2).2) := by
  induction l1 with
  | nil => simp
  | cons c t ih =>
    have hc : c ≠ '/' := fun hc => h (hc ▸ List.mem_cons_self c t)
    have ht : '/' ∉ t := fun hm => h (List.mem_cons_of_mem c hm)
    rw [List.cons_append, splitParentRev]
    simp only [if_neg hc]
    rw [ih ht]
    rfl

theorem splitParentRev_snd_shape (rp : List Char) :
    (splitParentRev rp).2 = [] ∨ ∃ t, (splitParentRev rp).2 = '/' :: t := by
  induction rp with
  | nil => left; rfl
  | cons c rest ih =>
    by_cases hc : c = '/'
    · subst hc
      right
      exact ⟨rest, by rw [splitParentRev]; simp⟩
    · rw [splitParentRev]
      simp only [if_neg hc]
      exact ih

theorem splitParentRev_idem (rp : List Char) :
    splitParentRev (splitParentRev rp).2 = ([], (splitParentRev rp).2) := by
  rcases splitParentRev_snd_shape rp with h | ⟨t, h⟩
  · rw [h]; rfl
  · rw [h, splitParentRev]
    simp

theorem stem_no_slash (p : List Char) :
    '/' ∉ (splitExt (splitParent p).2).1 := by
  intro hmem
  have hname := (splitParent_spec p).2
  rcases hse : (splitExt (splitParent p).2).2 with _ | e
  · rw [splitExt_stem_of_none (splitParent p).2 hse] at hmem
    exact hname '/' hmem rfl
  · have hpair : splitExt (splitParent p).2 =
        ((splitExt (splitParent p).2).1, some e) := by rw [← hse]
    obtain ⟨hdec, -⟩ := splitExt_spec (splitParent p).2 _ e hpair
    exact hname '/' (hdec ▸ List.mem_append_left _ hmem) rfl

/-- Appending a slash-free file name to a path's parent part splits back
into that parent and name. -/
theorem splitParent_parent_append (p rest : List Char) (h : '/' ∉ rest) :
    splitParent ((splitParent p).1 ++ rest) = ((splitParent p).1, rest) := by
  have hrm : '/' ∉ rest.reverse := fun hm => h (List.mem_reverse.mp hm)
  have hkey : splitParentRev (((splitParent p).1 ++ rest).reverse) =
      (rest.reverse, (splitParentRev p.reverse).2) := by
    have h1 : ((splitParent p).1 ++ rest).reverse =
        rest.reverse ++ (splitParentRev p.reverse).2 := by
      unfold splitParent
      simp
    rw [h1, splitParentRev_append _ _ hrm, splitParentRev_idem]
    simp
  show ((splitParentRev (((splitParent p).1 ++ rest).reverse)).2.reverse,
      (splitParentRev (((splitParent p).1 ++ rest).reverse)).1.reverse) = _
  rw [hkey]
  unfold splitParent
  simp

/-- `with_extension` produces a sibling: same parent directory. -/
theorem splitParent_with_extension (p ext : List Char) (hne : ext ≠ [])
    (hsl : '/' ∉ ext) :
    (splitParent (with_extension p ext)).1 = (splitParent p).1 := by
  have hrest : '/' ∉ (splitExt (splitParent p).2).1 ++ '.' :: ext := by
    intro hmem
    rcases List.mem_append.mp hmem with h1 | h1
    · exact stem_no_slash p h1
    · rcases List.mem_cons.mp h1 with h2 | h2
      · exact absurd h2.symm (by decide)
      · exact hsl h2
  rw [with_extension_decomp p ext hne, List.append_assoc,
    splitParent_parent_append p _ hrest]

theorem deploy_success_protocol (fs0 : Fs) (staged target : List Char)
    (force : Bool) (fsR : Fs)
    (h : deploy_symlink_m fs0 staged target force noFail = (.ok (), fsR)) :
    ∃ fsPre, Fs.lookup fsPre (with_extension target tmpExt) =
        some (.symlink staged) ∧
      Fs.renameP fsPre (with_extension target tmpExt) target = some fsR := by
  simp only [deploy_symlink_m, noFail] at h
  rcases hb : (if (fs0.existsP target || fs0.isSymlinkP target) && !force &&
        !is_janus_symlink fs0 target staged
      then Fs.copyP fs0 target (backup_path_for target)
      else some fs0) with _ | fs1
  · rw [hb] at h
    dsimp only at h
    simp at h
  · rw [hb] at h
    dsimp only at h
    rcases hs : (if fs1.existsP (with_extension target tmpExt) ||
          fs1.isSymlinkP (with_extension target tmpExt)
        then fs1.removeFileP (with_extension target tmpExt)
        else some fs1) with _ | fs2
    · rw [hs] at h
      dsimp only at h
      simp at h
    · rw [hs] at h
      dsimp only at h
      rcases hren : (if false = true then none
          else Fs.renameP (Fs.symlinkP fs2 staged
            (with_extension target tmpExt))
            (with_extension target tmpExt) target) with _ | fs4
      · rw [hren] at h
        dsimp only at h
        simp at h
      · rw [hren] at h
        dsimp only at h
        have h2 : fs4 = fsR := by simpa using h
        subst h2
        rw [if_neg (by decide)] at hren
        exact ⟨Fs.symlinkP fs2 staged (with_extension target tmpExt),
          by rw [Fs.symlinkP, Fs.lookup_set, if_pos rfl], hren⟩

theorem undeploy_success_protocol (fs0 : Fs) (staged target : List Char)
    (fsR : Fs)
    (h : undeploy_with_copy_m fs0 staged target noFail = (.ok (), fsR)) :
    ∃ fsPre c m, Fs.lookup fsPre (with_extension target tmpExt) =
        some (.file c m) ∧
      Fs.renameP fsPre (with_extension target tmpExt) target = some fsR := by
  simp only [undeploy_with_copy_m, noFail] at h
  rcases hs : (if fs0.existsP (with_extension target tmpExt) ||
        fs0.isSymlinkP (with_extension target tmpExt)
      then fs0.removeFileP (with_extension target tmpExt)
      else some fs0) with _ | fs1
  · rw [hs] at h
    dsimp only at h
    simp at h
  · rw [hs] at h
    dsimp only at h
    rcases hcp : Fs.copyP fs1 staged (with_extension target tmpExt)
        with _ | fs2
    · rw [hcp] at h
      dsimp only at h
      simp at h
    · rw [hcp] at h
      dsimp only at h
      rcases hren : (if false = true then none
          else Fs.renameP fs2 (with_extension target tmpExt) target)
          with _ | fs3
      · rw [hren] at h
        dsimp only at h
        simp at h
      · rw [hren] at h
        dsimp only at h
        have h2 : fs3 = fsR := by simpa using h
        subst h2
        rw [if_neg (by decide)] at hren
        obtain ⟨c, m, -, rfl⟩ := copyP_eq_some fs1 staged
          (with_extension target tmpExt) fs2 hcp
        exact ⟨Fs.set fs1 (with_extension target tmpExt) (.file c m), c, m,
          by rw [Fs.lookup_set, if_pos rfl], hren⟩

theorem deploy_success_backup (fs0 : Fs) (staged target : List Char)
    (force : Bool) (fsR : Fs)
    (h : deploy_symlink_m fs0 staged target force noFail = (.ok (), fsR)) :
    (((fs0.existsP target || fs0.isSymlinkP target) && !force &&
        !is_janus_symlink fs0 target staged) = true →
      ∃ c m, Fs.readFile fs0 target = some (c, m) ∧
        Fs.lookup fsR (backup_path_for target) = some (.file c m)) ∧
    (((fs0.existsP target || fs0.isSymlinkP target) && !force &&
        !is_janus_symlink fs0 target staged) = false →
      Fs.lookup fsR (backup_path_for target) =
        Fs.lookup fs0 (backup_path_for target)) := by
  have hbt : ¬ (with_extension target tmpExt = backup_path_for target) :=
    fun hh => backup_path_ne_temp target hh.symm
  have hbs : ¬ (target = backup_path_for target) :=
    fun hh => backup_path_ne_self target hh.symm
  simp only [deploy_symlink_m, noFail] at h
  rcases hb : (if (fs0.existsP target || fs0.isSymlinkP target) && !force &&
        !is_janus_symlink fs0 target staged
      then Fs.copyP fs0 target (backup_path_for target)
      else some fs0) with _ | fs1
  · rw [hb] at h
    dsimp only at h
    simp at h
  · rw [hb] at h
    dsimp only at h
    rcases hs : (if fs1.existsP (with_extension target tmpExt) ||
          fs1.isSymlinkP (with_extension target tmpExt)
        then fs1.removeFileP (with_extension target tmpExt)
        else some fs1) with _ | fs2
    · rw [hs] at h
      dsimp only at h
      simp at h
    · rw [hs] at h
      dsimp only at h
      rcases hren : (if false = true then none
          else Fs.renameP (Fs.symlinkP fs2 staged
            (with_extension target tmpExt))
            (with_extension target tmpExt) target) with _ | fs4
      · rw [hren] at h
        dsimp only at h
        simp at h
      · rw [hren] at h
        dsimp only at h
        have h2 : fs4 = fsR := by simpa using h
        subst h2
        rw [if_neg (by decide)] at hren
        obtain ⟨e, -, rfl⟩ := renameP_eq_some _ _ _ _ hren
        have hchain : Fs.lookup (Fs.set (Fs.removePath
            (Fs.symlinkP fs2 staged (with_extension target tmpExt))
            (with_extension target tmpExt)) target e)
            (backup_path_for target) =
            Fs.lookup fs2 (backup_path_for target) := by
          rw [Fs.lookup_set, if_neg hbs, Fs.lookup_removePath, if_neg hbt,
            Fs.symlinkP, Fs.lookup_set, if_neg hbt]
        have hl2 : Fs.lookup fs2 (backup_path_for target) =
            Fs.lookup fs1 (backup_path_for target) := by
          by_cases hc : (fs1.existsP (with_extension target tmpExt) ||
              fs1.isSymlinkP (with_extension target tmpExt)) = true
          · rw [if_pos hc] at hs
            rw [removeFileP_eq_some fs1 _ fs2 hs, Fs.lookup_removePath,
              if_neg hbt]
          · rw [if_neg hc] at hs
            rw [(by simpa using hs : fs1 = fs2)]
        constructor
        · intro hcond
          rw [if_pos hcond] at hb
          obtain ⟨c, m, hread, rfl⟩ := copyP_eq_some fs0 target
            (backup_path_for target) fs1 hb
          refine ⟨c, m, hread, ?_⟩
          rw [hchain, hl2, Fs.lookup_set, if_pos rfl]
        · intro hcond
          rw [if_neg (by simp [hcond])] at hb
          rw [hchain, hl2, (by simpa using hb : fs0 = fs1)]

/-- Shared concrete scenario: a staged file and a target that is already
the janus symlink to it (a redeploy). -/
def exStaged : List Char := "/s/a.conf".toList

/-- Target path of the concrete scenario. -/
def exTarget : List Char := "/t/a.conf".toList

/-- Filesystem of the redeploy scenario. -/
def exFs : Fs := [(exStaged, .file ['x'] 420), (exTarget, .symlink exStaged)]

/-- Filesystem with a plain pre-existing file at the target. -/
def exFsPlain : Fs :=
  [(exStaged, .file ['x'] 420), (exTarget, .file ['o'] 420)]

/-- C2 (amended): for deploy and for undeploy-with-copy, when the atomic
rename fails after the temporary artifact was created, the pre-existing
target path is left completely unchanged, the temp artifact is removed
best-effort, and the rename error is propagated with a context naming the
TARGET path (deploy.rs:137-141, undeploy.rs:182-188); if the best-effort
removal itself fails its error is discarded (`let _ =`), the propagated
error still names the target — not the temp path — and the temp artifact
is left behind. -/
theorem c2_atomic_failure_cleanup :
    (∀ (fs0 : Fs) (staged target : List Char) (force : Bool)
       (inj : FailCfg) (fsR : Fs),
      deploy_symlink_m fs0 staged target force inj =
        (.error (.atomicReplace target), fsR) →
      Fs.lookup fsR target = Fs.lookup fs0 target ∧
      (inj.removeTempFails = false →
        Fs.lookup fsR (with_extension target tmpExt) = none)) ∧
    (∀ (fs0 : Fs) (staged target : List Char) (inj : FailCfg) (fsR : Fs),
      undeploy_with_copy_m fs0 staged target inj =
        (.error (.atomicReplaceSymlink target), fsR) →
      Fs.lookup fsR target = Fs.lookup fs0 target ∧
      (inj.removeTempFails = false →
        Fs.lookup fsR (with_extension target tmpExt) = none)) :=
  ⟨deploy_rename_failure_frame, undeploy_rename_failure_frame⟩

theorem c2_atomic_failure_cleanup_witness :
    Fs.lookup (deploy_symlink_m exFs exStaged exTarget false
        ⟨true, false⟩).2 exTarget = Fs.lookup exFs exTarget ∧
    Fs.lookup (deploy_symlink_m exFs exStaged exTarget false
        ⟨true, false⟩).2 (with_extension exTarget tmpExt) = none := by
  have h := c2_atomic_failure_cleanup.1 exFs exStaged exTarget false
    ⟨true, false⟩
    (deploy_symlink_m exFs exStaged exTarget false ⟨true, false⟩).2 rfl
  exact ⟨h.1, h.2 rfl⟩

/-- C2 counterexample: with the rename failing after the temp symlink was
created and the best-effort temp removal also failing, the propagated
error names the target path, not the temp path (the removal failure is
silently discarded), and the temp symlink is left on disk — refuting "if
that removal fails the propagated error names the temp path". -/
theorem c2_cleanup_failure_error_names_target :
    (deploy_symlink_m exFs exStaged exTarget false ⟨true, true⟩).1 =
      .error (.atomicReplace exTarget) ∧
    Fs.lookup (deploy_symlink_m exFs exStaged exTarget false ⟨true, true⟩).2
      (with_extension exTarget tmpExt) = some (.symlink exStaged) ∧
    exTarget ≠ with_extension exTarget tmpExt :=
  ⟨rfl, rfl, by decide⟩

/-- C8 counterexample: for target `/t/a.conf` the temp artifact is created
at `/t/a..janus.tmp` — `Path::with_extension(".janus.tmp")` REPLACES the
`conf` extension — not at the claimed `<target>.janus.tmp`
(`/t/a.conf.janus.tmp`); with the rename held failing so the artifact is
observable, the symlink sits at the former path and the latter is empty. -/
theorem c8_temp_path_drops_extension :
    with_extension exTarget tmpExt = "/t/a..janus.tmp".toList ∧
    with_extension exTarget tmpExt ≠ exTarget ++ tmpExt ∧
    Fs.lookup (deploy_symlink_m exFs exStaged exTarget false ⟨true, true⟩).2
      ("/t/a..janus.tmp".toList) = some (.symlink exStaged) ∧
    Fs.lookup (deploy_symlink_m exFs exStaged exTarget false ⟨true, true⟩).2
      (exTarget ++ tmpExt) = none :=
  ⟨rfl, by decide, rfl, rfl⟩

/-- C8 (amended): the temporary artifact of both atomic protocols lives at
`with_extension(target, ".janus.tmp")` — the sibling path in the target's
own directory whose file name is `<stem>..janus.tmp`, i.e. the target's
extension is replaced, not preserved — and the target is then replaced by
a single filesystem rename of that temp path over the real target (a temp
symlink for deploy, a temp file copy for undeploy). -/
theorem c8_temp_path_and_single_rename :
    (∀ (fs0 : Fs) (staged target : List Char) (force : Bool) (fsR : Fs),
      deploy_symlink_m fs0 staged target force noFail = (.ok (), fsR) →
      ∃ fsPre, Fs.lookup fsPre (with_extension target tmpExt) =
          some (.symlink staged) ∧
        Fs.renameP fsPre (with_extension target tmpExt) target = some fsR) ∧
    (∀ (fs0 : Fs) (staged target : List Char) (fsR : Fs),
      undeploy_with_copy_m fs0 staged target noFail = (.ok (), fsR) →
      ∃ fsPre c m, Fs.lookup fsPre (with_extension target tmpExt) =
          some (.file c m) ∧
        Fs.renameP fsPre (with_extension target tmpExt) target = some fsR) ∧
    (∀ target : List Char,
      (splitParent (with_extension target tmpExt)).1 =
        (splitParent target).1) :=
  ⟨deploy_success_protocol, undeploy_success_protocol,
    fun target => splitParent_with_extension target tmpExt (by decide)
      (by decide)⟩

theorem c8_temp_path_and_single_rename_witness :
    ∃ fsPre, Fs.lookup fsPre (with_extension exTarget tmpExt) =
        some (.symlink exStaged) ∧
      Fs.renameP fsPre (with_extension exTarget tmpExt) exTarget =
        some (deploy_symlink_m exFs exStaged exTarget false noFail).2 :=
  c8_temp_path_and_single_rename.1 exFs exStaged exTarget false
    (deploy_symlink_m exFs exStaged exTarget false noFail).2 rfl

theorem backup_path_eq_append (target e : List Char)
    (hse : (splitExt (splitParent target).2).2 = some e) :
    backup_path_for target = target ++ bakSuffix := by
  have hpair : splitExt (splitParent target).2 =
      ((splitExt (splitParent target).2).1, some e) := by rw [← hse]
  obtain ⟨hname, -⟩ := splitExt_spec (splitParent target).2 _ e hpair
  unfold backup_path_for
  rw [hse]
  rw [with_extension_decomp _ _ (by simp [bakSuffix])]
  conv_rhs => rw [← (splitParent_spec target).1, hname]
  simp

/-- C5: conditioned on a successful (non-injected) deploy of a file: a
backup containing the pre-existing target's resolved content is created at
`backup_path_for target` exactly when the target path already exists,
`force` is false, and the target is not already the janus symlink to the
staged path; otherwise — in particular on a redeploy over one's own
symlink or with `force` — the backup path is left untouched.  For a target
whose file name has an extension, `backup_path_for target` is literally
`<target>.janus.bak`, i.e. `<stem>.<original-extension>.janus.bak`. -/
theorem c5_backup_exactly_when :
    (∀ (fs0 : Fs) (staged target : List Char) (force : Bool) (fsR : Fs),
      deploy_symlink_m fs0 staged target force noFail = (.ok (), fsR) →
      (((fs0.existsP target || fs0.isSymlinkP target) && !force &&
          !is_janus_symlink fs0 target staged) = true →
        ∃ c m, Fs.readFile fs0 target = some (c, m) ∧
          Fs.lookup fsR (backup_path_for target) = some (.file c m)) ∧
      (((fs0.existsP target || fs0.isSymlinkP target) && !force &&
          !is_janus_symlink fs0 target staged) = false →
        Fs.lookup fsR (backup_path_for target) =
          Fs.lookup fs0 (backup_path_for target))) ∧
    (∀ target e : List Char, (splitExt (splitParent target).2).2 = some e →
      backup_path_for target = target ++ bakSuffix) :=
  ⟨deploy_success_backup, backup_path_eq_append⟩

theorem c5_backup_exactly_when_witness :
    (∃ c m, Fs.readFile exFsPlain exTarget = some (c, m) ∧
      Fs.lookup (deploy_symlink_m exFsPlain exStaged exTarget false
        noFail).2 (backup_path_for exTarget) = some (.file c m)) ∧
    backup_path_for exTarget = exTarget ++ bakSuffix :=
  ⟨(c5_backup_exactly_when.1 exFsPlain exStaged exTarget false
      (deploy_symlink_m exFsPlain exStaged exTarget false noFail).2
      rfl).1 (by decide),
   c5_backup_exactly_when.2 exTarget "conf".toList (by decide)⟩

/-! ## Undeploy gating (`src/ops/undeploy.rs`) -/

/-- Embeds `expand_tilde` (paths.rs:15-25). -/
def expand_tilde (home p : List Char) : List Char :=
  if p.take 2 = ['~', '/'] then home ++ '/' :: p.drop 2
  else if p = ['~'] then home
  else p

/-- Rendering of the state file used by `State::save`; the TOML format
itself is an external collaborator (spec §1), so any injective-enough
rendering serves the model — only the write's path matters here. -/
def serializeState (st : State) : List Char :=
  (st.deployed.map (fun e => e.src ++ '\t' :: e.target ++ ['\n'])).flatten
    ++ (st.ignored.map (fun e => e.path ++ '\t' :: e.reason ++ ['\n'])).flatten

/-- Embeds `undeploy_single` (undeploy.rs:37-64): the janus-symlink gate,
then symlink removal or atomic replacement by a file copy; the state is
updated only when the target was actually undeployed.  The Bool is
"undeployed?" (`Ok(false)` = skipped). -/
def undeploy_single_m (src staged_dir target_path : List Char)
    (remove_file : Bool) (st : State) (fs : Fs) (inj : FailCfg) :
    Except OpError (Bool × State) × Fs :=
  let staged_path := pjoin staged_dir src
  if !is_janus_symlink fs target_path staged_path then
    (.ok (false, st), fs)
  else
    if remove_file then
      match fs.removeFileP target_path with
      | none => (.error (.removeSymlink target_path), fs)
      | some fs2 => (.ok (true, st.remove_deployed src), fs2)
    else
      match undeploy_with_copy_m fs staged_path target_path inj with
      | (.error e, fs2) => (.error e, fs2)
      | (.ok _, fs2) => (.ok (true, st.remove_deployed src), fs2)

/-- One iteration of `undeploy::run`'s loop (undeploy.rs:90-156,
`dry_run = false`): skip (continue) when the state does not record the
file as deployed, otherwise undeploy the single file and save the state
(`save_with_recovery`, with `fail_writes` off). -/
def undeploy_entry_m (home staged_dir state_path : List Char)
    (remove_file : Bool) (src targetRaw : List Char) (st : State)
    (fs : Fs) (inj : FailCfg) : Except OpError State × Fs :=
  if !(st.is_deployed src) then (.ok st, fs)
  else
    let target_path := expand_tilde home targetRaw
    match undeploy_single_m src staged_dir target_path remove_file st fs
        inj with
    | (.error e, fs2) => (.error e, fs2)
    | (.ok (false, st2), fs2) => (.ok st2, fs2)
    | (.ok (true, st2), fs2) =>
      (.ok st2, fs2.writeP state_path (serializeState st2))

theorem undeploy_entry_skip (home staged_dir state_path src targetRaw :
    List Char) (remove_file : Bool) (st : State) (fs : Fs) (inj : FailCfg)
    (h : ¬(st.is_deployed src = true ∧
      is_janus_symlink fs (expand_tilde home targetRaw)
        (pjoin staged_dir src) = true)) :
    undeploy_entry_m home staged_dir state_path remove_file src targetRaw
      st fs inj = (.ok st, fs) := by
  by_cases hdep : st.is_deployed src = true
  · have hj : is_janus_symlink fs (expand_tilde home targetRaw)
        (pjoin staged_dir src) = false := by
      rcases hj0 : is_janus_symlink fs (expand_tilde home targetRaw)
          (pjoin staged_dir src) with _ | _
      · rfl
      · exact absurd ⟨hdep, hj0⟩ h
    simp only [undeploy_entry_m, undeploy_single_m]
    rw [if_neg (by simp [hdep]), if_pos (by simp [hj])]
  · have hdep2 : st.is_deployed src = false := by
      rcases hb : st.is_deployed src with _ | _
      · rfl
      · exact absurd hb hdep
    simp only [undeploy_entry_m]
    rw [if_pos (by simp [hdep2])]

/-- C6: undeploy never modifies a target path it does not recognize as its
own: the target can only change when the State records the file as
deployed AND the target is currently a symlink whose destination equals
the expected staged path; when that combined check fails the file is
skipped without error, state and filesystem (in particular the target) are
left unchanged, and the run continues with the next entry. -/
theorem c6_undeploy_gate :
    ∀ (home staged_dir state_path src targetRaw : List Char)
      (remove_file : Bool) (st : State) (fs : Fs) (inj : FailCfg),
      (¬(st.is_deployed src = true ∧
          is_janus_symlink fs (expand_tilde home targetRaw)
            (pjoin staged_dir src) = true) →
        undeploy_entry_m home staged_dir state_path remove_file src
          targetRaw st fs inj = (.ok st, fs)) ∧
      (∀ (r : Except OpError State) (fs2 : Fs),
        undeploy_entry_m home staged_dir state_path remove_file src
          targetRaw st fs inj = (r, fs2) →
        Fs.lookup fs2 (expand_tilde home targetRaw) ≠
          Fs.lookup fs (expand_tilde home targetRaw) →
        st.is_deployed src = true ∧
        is_janus_symlink fs (expand_tilde home targetRaw)
          (pjoin staged_dir src) = true) := by
  intro home staged_dir state_path src targetRaw remove_file st fs inj
  constructor
  · exact undeploy_entry_skip home staged_dir state_path src targetRaw
      remove_file st fs inj
  · intro r fs2 heq hneq
    by_cases hg : st.is_deployed src = true ∧
        is_janus_symlink fs (expand_tilde home targetRaw)
          (pjoin staged_dir src) = true
    · exact hg
    · have hskip := undeploy_entry_skip home staged_dir state_path src
        targetRaw remove_file st fs inj hg
      have h3 := hskip.symm.trans heq
      injection h3 with h1 h2
      subst h2
      exact absurd rfl hneq

/-- Staged directory of the concrete undeploy scenario. -/
def exStagedDir : List Char := "/d/.staged".toList

/-- Source key of the concrete undeploy scenario. -/
def exSrc : List Char := "a.conf".toList

theorem c6_undeploy_gate_witness :
    undeploy_entry_m "/h".toList exStagedDir
      "/d/.janus_state.toml".toList false exSrc exTarget
      (State.loadFrom [] [⟨exSrc, exTarget⟩]) exFs noFail =
      (.ok (State.loadFrom [] [⟨exSrc, exTarget⟩]), exFs) :=
  (c6_undeploy_gate "/h".toList exStagedDir
    "/d/.janus_state.toml".toList exSrc exTarget false
    (State.loadFrom [] [⟨exSrc, exTarget⟩]) exFs noFail).1 (by decide)

/-! ## Orphan cleaning (`src/ops/clean.rs`)

The walk of `clean_orphans_in_dir` (clean.rs:169-243) iterates a snapshot
of the entries strictly under `dir` (`min_depth: 1`); non-directory
entries whose relative path is not configured and passes `extra_check` are
removed (error-collection: a failed removal leaves the store unchanged and
the loop continues); afterwards empty directories are removed bottom-up.
`FakeFs` iterates the walk sorted by path; the model folds in store order —
the per-path removals commute, and the claims below concern single paths,
so the fold order is immaterial to every stated lookup. -/

/-- Strict-descendant test (`Path::starts_with` + `min_depth: 1` on
slash-separated paths). -/
def isUnder (dir p : List Char) : Bool :=
  (dir ++ ['/']).isPrefixOf p

/-- Directory entries are skipped by the file pass (clean.rs:197-200). -/
def FsEntry.isDirE : FsEntry → Bool
  | .dir => true
  | _ => false

/-- Embeds `FakeFs::remove_dir` (fake_fs.rs:227-242): only an existing,
childless directory entry is removed. -/
def Fs.removeDirP (fs : Fs) (p : List Char) : Option Fs :=
  match fs.lookup p with
  | some .dir =>
    if fs.any (fun qe => isUnder p qe.1 &&
        (qe.1.drop (p.length + 1)).all (fun c => c ≠ '/'))
    then none
    else some (fs.removePath p)
  | _ => none

/-- One file-pass step of `clean_orphans_in_dir` (clean.rs:196-231) for a
walk entry `pe`: skip directories, configured paths, and paths failing
`extra_check`; otherwise remove the file (keeping the store unchanged if
the removal errors — the error is collected). -/
def cleanFileStep (dir : List Char) (configured : List (List Char))
    (extra : List Char → Bool) (fs : Fs) (pe : List Char × FsEntry) : Fs :=
  if pe.2.isDirE then fs
  else
    let rel := pe.1.drop (dir.length + 1)
    if configured.contains rel then fs
    else if !(extra rel) then fs
    else
      match fs.removeFileP pe.1 with
      | some fs2 => fs2
      | none => fs

/-- One directory-pass step (clean.rs:233-240): best-effort removal of an
empty directory. -/
def cleanDirStep (fs : Fs) (pe : List Char × FsEntry) : Fs :=
  match fs.removeDirP pe.1 with
  | some fs2 => fs2
  | none => fs

/-- Embeds `clean_orphans_in_dir` (clean.rs:169-243). -/
def clean_orphans_in_dir_m (fs0 : Fs) (dir : List Char)
    (configured : List (List Char)) (extra : List Char → Bool) : Fs :=
  if !(fs0.existsP dir) then fs0
  else
    let entries := fs0.filter (fun pe => isUnder dir pe.1)
    let afterFiles := entries.foldl (cleanFileStep dir configured extra) fs0
    (entries.filter (fun pe => pe.2.isDirE)).foldl cleanDirStep afterFiles

/-- Embeds `clean_orphans` (clean.rs:114-165): clean `.generated/` with no
extra check, then compute the live-deployed sources against the state (the
symlink-equality re-verification of clean.rs:130-138) and clean `.staged/`
preserving them. -/
def clean_orphans_m (fs0 : Fs) (home generated_dir staged_dir : List Char)
    (configured : List (List Char)) (deployed : List DeployedEntry) : Fs :=
  let fs1 := clean_orphans_in_dir_m fs0 generated_dir configured
    (fun _ => true)
  let deployed_srcs := (deployed.filter (fun d =>
      is_janus_symlink fs1 (expand_tilde home d.target)
        (pjoin staged_dir d.src))).map DeployedEntry.src
  clean_orphans_in_dir_m fs1 staged_dir configured
    (fun rel => !(deployed_srcs.contains rel))

/-! ### Facts about the cleaning walk -/

theorem pjoin_drop (a b : List Char) : (pjoin a b).drop (a.length + 1) = b := by
  have h1 : pjoin a b = (a ++ ['/']) ++ b := by simp [pjoin]
  have h2 : (a ++ ['/']).length = a.length + 1 := by simp
  rw [h1, ← h2, List.drop_left]

theorem isPrefixOf_append (a b : List Char) : a.isPrefixOf (a ++ b) = true := by
  induction a with
  | nil => simp [List.isPrefixOf]
  | cons c t ih => simp [List.isPrefixOf, ih]

theorem isUnder_pjoin (a b : List Char) : isUnder a (pjoin a b) = true := by
  have h1 : pjoin a b = (a ++ ['/']) ++ b := by simp [pjoin]
  rw [isUnder, h1]
  exact isPrefixOf_append (a ++ ['/']) b

theorem lookup_mem : ∀ (fs : Fs) (q : List Char) (e : FsEntry),
    Fs.lookup fs q = some e → (q, e) ∈ fs := by
  intro fs
  induction fs with
  | nil => intro q e h; exact absurd h (by simp [Fs.lookup])
  | cons a rest ih =>
    intro q e h
    obtain ⟨ak, ae⟩ := a
    rw [Fs.lookup] at h
    by_cases hk : ak = q
    · rw [if_pos hk] at h
      cases h
      exact List.mem_cons.mpr (Or.inl (by rw [hk]))
    · rw [if_neg hk] at h
      exact List.mem_cons_of_mem _ (ih q e h)

theorem fold_preserve {β : Type} (f : Fs → β → Fs) (Q : Fs → Prop) :
    ∀ (l : List β) (fs : Fs), Q fs →
      (∀ fsi b, b ∈ l → Q fsi → Q (f fsi b)) → Q (l.foldl f fs) := by
  intro l
  induction l with
  | nil => intro fs h _; exact h
  | cons b rest ih =>
    intro fs h hstep
    exact ih (f fs b) (hstep fs b (by simp) h)
      (fun fsi b2 hb2 hq => hstep fsi b2 (by simp [hb2]) hq)

theorem cleanFileStep_lookup_other (dir : List Char)
    (configured : List (List Char)) (extra : List Char → Bool) (fs : Fs)
    (pe : List Char × FsEntry) (q : List Char) (hq : pe.1 ≠ q) :
    Fs.lookup (cleanFileStep dir configured extra fs pe) q =
      Fs.lookup fs q := by
  simp only [cleanFileStep]
  split
  · rfl
  · split
    · rfl
    · split
      · rfl
      · rcases hrm : Fs.removeFileP fs pe.1 with _ | fs2
        · rfl
        · rw [removeFileP_eq_some fs pe.1 fs2 hrm, Fs.lookup_removePath,
            if_neg hq]

theorem cleanFileStep_preserves_none (dir : List Char)
    (configured : List (List Char)) (extra : List Char → Bool) (fs : Fs)
    (pe : List Char × FsEntry) (q : List Char)
    (hq : Fs.lookup fs q = none) :
    Fs.lookup (cleanFileStep dir configured extra fs pe) q = none := by
  simp only [cleanFileStep]
  split
  · exact hq
  · split
    · exact hq
    · split
      · exact hq
      · rcases hrm : Fs.removeFileP fs pe.1 with _ | fs2
        · exact hq
        · rw [removeFileP_eq_some fs pe.1 fs2 hrm, Fs.lookup_removePath]
          split
          · rfl
          · exact hq

theorem removeDirP_eq_some (fs : Fs) (p : List Char) (fs2 : Fs)
    (h : Fs.removeDirP fs p = some fs2) :
    Fs.lookup fs p = some .dir ∧ fs2 = Fs.removePath fs p := by
  unfold Fs.removeDirP at h
  rcases hl : fs.lookup p with _ | e
  · rw [hl] at h; exact absurd h (by simp)
  · rw [hl] at h
    cases e with
    | file c m => exact absurd h (by simp)
    | symlink t => exact absurd h (by simp)
    | dir =>
      dsimp only at h
      refine ⟨rfl, ?_⟩
      split at h
      · exact absurd h (by simp)
      · exact (Option.some.inj h).symm

theorem cleanDirStep_lookup_nondir (fs : Fs) (pe : List Char × FsEntry)
    (q : List Char) (hq : Fs.lookup fs q ≠ some .dir) :
    Fs.lookup (cleanDirStep fs pe) q = Fs.lookup fs q := by
  unfold cleanDirStep
  rcases hrd : Fs.removeDirP fs pe.1 with _ | fs2
  · rfl
  · obtain ⟨hdir, hfs2⟩ := removeDirP_eq_some fs pe.1 fs2 hrd
    have hne : pe.1 ≠ q := fun he => hq (he ▸ hdir)
    rw [hfs2, Fs.lookup_removePath, if_neg hne]

theorem removePath_keys_sublist (fs : Fs) (p : List Char) :
    List.Sublist ((Fs.removePath fs p).map Prod.fst) (fs.map Prod.fst) :=
  List.Sublist.map Prod.fst (List.filter_sublist fs)

theorem cleanFileStep_nodup (dir : List Char)
    (configured : List (List Char)) (extra : List Char → Bool) (fs : Fs)
    (pe : List Char × FsEntry) (h : (fs.map Prod.fst).Nodup) :
    ((cleanFileStep dir configured extra fs pe).map Prod.fst).Nodup := by
  simp only [cleanFileStep]
  split
  · exact h
  · split
    · exact h
    · split
      · exact h
      · rcases hrm : Fs.removeFileP fs pe.1 with _ | fs2
        · exact h
        · rw [removeFileP_eq_some fs pe.1 fs2 hrm]
          exact List.Nodup.sublist (removePath_keys_sublist fs pe.1) h

theorem cleanDirStep_nodup (fs : Fs) (pe : List Char × FsEntry)
    (h : (fs.map Prod.fst).Nodup) :
    ((cleanDirStep fs pe).map Prod.fst).Nodup := by
  unfold cleanDirStep
  rcases hrd : Fs.removeDirP fs pe.1 with _ | fs2
  · exact h
  · rw [(removeDirP_eq_some fs pe.1 fs2 hrd).2]
    exact List.Nodup.sublist (removePath_keys_sublist fs pe.1) h

theorem clean_in_dir_nodup (fs0 : Fs) (dir : List Char)
    (configured : List (List Char)) (extra : List Char → Bool)
    (h : (fs0.map Prod.fst).Nodup) :
    ((clean_orphans_in_dir_m fs0 dir configured extra).map Prod.fst).Nodup := by
  simp only [clean_orphans_in_dir_m]
  split
  · exact h
  · refine fold_preserve cleanDirStep (fun fsi => (fsi.map Prod.fst).Nodup)
      _ _ ?_ (fun fsi b _ hq => cleanDirStep_nodup fsi b hq)
    exact fold_preserve (cleanFileStep dir configured extra)
      (fun fsi => (fsi.map Prod.fst).Nodup) _ _ h
      (fun fsi b _ hq => cleanFileStep_nodup dir configured extra fsi b hq)

theorem cleanFileStep_removes (dir : List Char)
    (configured : List (List Char)) (extra : List Char → Bool) (fs : Fs)
    (p c : List Char) (m : Nat)
    (hcfg : configured.contains (p.drop (dir.length + 1)) = false)
    (hextra : extra (p.drop (dir.length + 1)) = true)
    (hl : Fs.lookup fs p = some (.file c m)) :
    Fs.lookup (cleanFileStep dir configured extra fs (p, .file c m)) p =
      none := by
  simp only [cleanFileStep]
  rw [if_neg (by simp [FsEntry.isDirE]), if_neg (by rw [hcfg]; simp),
    if_neg (by rw [hextra]; simp)]
  unfold Fs.removeFileP
  rw [hl]
  dsimp only
  rw [Fs.lookup_removePath, if_pos rfl]

theorem clean_in_dir_removes (fs0 : Fs) (dir : List Char)
    (configured : List (List Char)) (extra : List Char → Bool)
    (r c : List Char) (m : Nat)
    (hnd : (fs0.map Prod.fst).Nodup)
    (hdir : Fs.existsP fs0 dir = true)
    (hf : Fs.lookup fs0 (pjoin dir r) = some (.file c m))
    (hcfg : configured.contains r = false)
    (hextra : extra r = true) :
    Fs.lookup (clean_orphans_in_dir_m fs0 dir configured extra)
      (pjoin dir r) = none := by
  simp only [clean_orphans_in_dir_m]
  rw [if_neg (by simp [hdir])]
  have hmem : (pjoin dir r, FsEntry.file c m) ∈
      fs0.filter (fun pe => isUnder dir pe.1) :=
    List.mem_filter.mpr ⟨lookup_mem fs0 _ _ hf, isUnder_pjoin dir r⟩
  obtain ⟨l1, l2, hsplit⟩ := List.append_of_mem hmem
  have hnd2 : ((fs0.filter (fun pe => isUnder dir pe.1)).map Prod.fst).Nodup :=
    List.Nodup.sublist (List.Sublist.map Prod.fst (List.filter_sublist fs0)) hnd
  rw [hsplit, List.map_append, List.map_cons, List.nodup_middle,
    List.nodup_cons] at hnd2
  have hq1 : ∀ b ∈ l1, b.1 ≠ pjoin dir r := by
    intro b hb he
    exact hnd2.1 (List.mem_append.mpr (Or.inl (List.mem_map.mpr ⟨b, hb, he⟩)))
  have hA : Fs.lookup (List.foldl (cleanFileStep dir configured extra) fs0 l1)
      (pjoin dir r) = some (.file c m) :=
    fold_preserve (cleanFileStep dir configured extra)
      (fun fsi => Fs.lookup fsi (pjoin dir r) = some (.file c m)) l1 fs0 hf
      (fun fsi b hb hqi => by
        dsimp only at hqi ⊢
        rw [cleanFileStep_lookup_other dir configured extra fsi b _ (hq1 b hb)]
        exact hqi)
  rw [hsplit]
  refine fold_preserve cleanDirStep
    (fun fsi => Fs.lookup fsi (pjoin dir r) = none) _ _ ?_
    (fun fsi b _ hqi => by
      dsimp only at hqi ⊢
      rw [cleanDirStep_lookup_nondir fsi b _ (by rw [hqi]; simp)]
      exact hqi)
  rw [List.foldl_append, List.foldl_cons]
  refine fold_preserve (cleanFileStep dir configured extra)
    (fun fsi => Fs.lookup fsi (pjoin dir r) = none) l2 _ ?_
    (fun fsi b _ hqi =>
      cleanFileStep_preserves_none dir configured extra fsi b _ hqi)
  exact cleanFileStep_removes dir configured extra _ (pjoin dir r) c m
    (by rw [pjoin_drop]; exact hcfg) (by rw [pjoin_drop]; exact hextra) hA

theorem clean_in_dir_keeps_file (fs0 : Fs) (dir : List Char)
    (configured : List (List Char)) (extra : List Char → Bool)
    (q c : List Char) (m : Nat)
    (hf : Fs.lookup fs0 q = some (.file c m))
    (hkeep : isUnder dir q = false ∨
      configured.contains (q.drop (dir.length + 1)) = true ∨
      extra (q.drop (dir.length + 1)) = false) :
    Fs.lookup (clean_orphans_in_dir_m fs0 dir configured extra) q =
      some (.file c m) := by
  simp only [clean_orphans_in_dir_m]
  split
  · exact hf
  · refine fold_preserve cleanDirStep
      (fun fsi => Fs.lookup fsi q = some (.file c m)) _ _ ?_
      (fun fsi b _ hqi => by
        dsimp only at hqi ⊢
        rw [cleanDirStep_lookup_nondir fsi b _ (by rw [hqi]; simp)]
        exact hqi)
    refine fold_preserve (cleanFileStep dir configured extra)
      (fun fsi => Fs.lookup fsi q = some (.file c m)) _ _ hf ?_
    intro fsi b hb hqi
    by_cases hbq : b.1 = q
    · have hunder : isUnder dir q = true := by
        rw [← hbq]
        exact (List.mem_filter.mp hb).2
      rcases hkeep with hk | hk | hk
      · rw [hunder] at hk
        exact absurd hk (by simp)
      · simp only [cleanFileStep]
        split
        · exact hqi
        · simp only [hbq]
          rw [if_pos hk]
          exact hqi
      · simp only [cleanFileStep]
        split
        · exact hqi
        · simp only [hbq]
          split
          · exact hqi
          · rw [if_pos (by rw [hk]; simp)]
            exact hqi
    · rw [cleanFileStep_lookup_other dir configured extra fsi b q hbq]
      exact hqi

theorem clean_in_dir_preserves_none (fs0 : Fs) (dir : List Char)
    (configured : List (List Char)) (extra : List Char → Bool)
    (q : List Char) (hf : Fs.lookup fs0 q = none) :
    Fs.lookup (clean_orphans_in_dir_m fs0 dir configured extra) q = none := by
  simp only [clean_orphans_in_dir_m]
  split
  · exact hf
  · refine fold_preserve cleanDirStep (fun fsi => Fs.lookup fsi q = none)
      _ _ ?_ (fun fsi b _ hqi => by
        dsimp only at hqi ⊢
        rw [cleanDirStep_lookup_nondir fsi b _ (by rw [hqi]; simp)]
        exact hqi)
    exact fold_preserve (cleanFileStep dir configured extra)
      (fun fsi => Fs.lookup fsi q = none) _ _ hf
      (fun fsi b _ hqi =>
        cleanFileStep_preserves_none dir configured extra fsi b q hqi)

/-- C7: `clean_orphans` (clean.rs:114-165) over a duplicate-free store:
a file under `.generated/` whose relative path is not configured is always
deleted; a file under `.staged/` whose relative path is not configured is
preserved exactly when it is live — the state lists it as deployed and the
recorded target is a symlink to its staged path (the `deployed_srcs`
re-verification of clean.rs:130-138, checked against the store after the
generated pass) — and deleted otherwise; files whose relative path is
configured are never deleted by either pass. -/
theorem c7_clean_orphans (fs0 : Fs) (home gen staged : List Char)
    (configured : List (List Char)) (deployed : List DeployedEntry)
    (hnd : (List.map Prod.fst fs0).Nodup) :
    (∀ r c m, Fs.existsP fs0 gen = true →
      Fs.lookup fs0 (pjoin gen r) = some (.file c m) →
      configured.contains r = false →
      Fs.lookup (clean_orphans_m fs0 home gen staged configured deployed)
        (pjoin gen r) = none) ∧
    (∀ r c m,
      Fs.existsP (clean_orphans_in_dir_m fs0 gen configured (fun _ => true))
        staged = true →
      Fs.lookup fs0 (pjoin staged r) = some (.file c m) →
      isUnder gen (pjoin staged r) = false →
      configured.contains r = false →
      (((deployed.filter (fun d =>
          is_janus_symlink
            (clean_orphans_in_dir_m fs0 gen configured (fun _ => true))
            (expand_tilde home d.target) (pjoin staged d.src))).map
          DeployedEntry.src).contains r = true →
        Fs.lookup (clean_orphans_m fs0 home gen staged configured deployed)
          (pjoin staged r) = some (.file c m)) ∧
      (((deployed.filter (fun d =>
          is_janus_symlink
            (clean_orphans_in_dir_m fs0 gen configured (fun _ => true))
            (expand_tilde home d.target) (pjoin staged d.src))).map
          DeployedEntry.src).contains r = false →
        Fs.lookup (clean_orphans_m fs0 home gen staged configured deployed)
          (pjoin staged r) = none)) ∧
    (∀ r c m, configured.contains r = true →
      (Fs.lookup fs0 (pjoin gen r) = some (.file c m) →
        isUnder staged (pjoin gen r) = false →
        Fs.lookup (clean_orphans_m fs0 home gen staged configured deployed)
          (pjoin gen r) = some (.file c m)) ∧
      (Fs.lookup fs0 (pjoin staged r) = some (.file c m) →
        isUnder gen (pjoin staged r) = false →
        Fs.lookup (clean_orphans_m fs0 home gen staged configured deployed)
          (pjoin staged r) = some (.file c m))) := by
  refine ⟨?_, ?_, ?_⟩
  · intro r c m hex hf hcfg
    simp only [clean_orphans_m]
    exact clean_in_dir_preserves_none _ staged configured _ _
      (clean_in_dir_removes fs0 gen configured (fun _ => true) r c m hnd hex
        hf hcfg rfl)
  · intro r c m hex hf hng hcfg
    have hf1 : Fs.lookup (clean_orphans_in_dir_m fs0 gen configured
        (fun _ => true)) (pjoin staged r) = some (.file c m) :=
      clean_in_dir_keeps_file fs0 gen configured (fun _ => true)
        (pjoin staged r) c m hf (Or.inl hng)
    have hnd1 : ((clean_orphans_in_dir_m fs0 gen configured
        (fun _ => true)).map Prod.fst).Nodup :=
      clean_in_dir_nodup fs0 gen configured (fun _ => true) hnd
    constructor
    · intro hlive
      simp only [clean_orphans_m]
      refine clean_in_dir_keeps_file _ staged configured _ (pjoin staged r)
        c m hf1 (Or.inr (Or.inr ?_))
      dsimp only
      rw [pjoin_drop, hlive]
      rfl
    · intro hdead
      simp only [clean_orphans_m]
      refine clean_in_dir_removes _ staged configured _ r c m hnd1 hex hf1
        hcfg ?_
      dsimp only
      rw [hdead]
      rfl
  · intro r c m hcfg
    constructor
    · intro hf hns
      simp only [clean_orphans_m]
      refine clean_in_dir_keeps_file _ staged configured _ (pjoin gen r) c m
        ?_ (Or.inl hns)
      exact clean_in_dir_keeps_file fs0 gen configured (fun _ => true)
        (pjoin gen r) c m hf (Or.inr (Or.inl (by rw [pjoin_drop]; exact hcfg)))
    · intro hf hng
      simp only [clean_orphans_m]
      refine clean_in_dir_keeps_file _ staged configured _ (pjoin staged r)
        c m ?_ (Or.inr (Or.inl (by rw [pjoin_drop]; exact hcfg)))
      exact clean_in_dir_keeps_file fs0 gen configured (fun _ => true)
        (pjoin staged r) c m hf (Or.inl hng)

/-- Clean-orphans scenario: `a` is a staged orphan still deployed as a live
symlink, `b` a dead staged orphan, `k` the sole configured src. -/
def exHome : List Char := "/h".toList

def exGenDir : List Char := "/d/g".toList

def exStagedDir2 : List Char := "/d/s".toList

def exCfg : List (List Char) := ["k".toList]

def exDeployedCl : List DeployedEntry := [⟨"a".toList, "/t/a".toList⟩]

def exFsClean : Fs :=
  [(exGenDir, .dir), (exStagedDir2, .dir),
   (pjoin exGenDir "a".toList, .file "ga".toList 420),
   (pjoin exStagedDir2 "a".toList, .file "sa".toList 420),
   (pjoin exStagedDir2 "b".toList, .file "sb".toList 420),
   (pjoin exGenDir "k".toList, .file "gk".toList 420),
   ("/t/a".toList, .symlink (pjoin exStagedDir2 "a".toList))]

theorem c7_clean_orphans_witness :
    Fs.lookup (clean_orphans_m exFsClean exHome exGenDir exStagedDir2 exCfg
      exDeployedCl) (pjoin exGenDir "a".toList) = none ∧
    Fs.lookup (clean_orphans_m exFsClean exHome exGenDir exStagedDir2 exCfg
      exDeployedCl) (pjoin exStagedDir2 "a".toList) =
      some (.file "sa".toList 420) ∧
    Fs.lookup (clean_orphans_m exFsClean exHome exGenDir exStagedDir2 exCfg
      exDeployedCl) (pjoin exStagedDir2 "b".toList) = none ∧
    Fs.lookup (clean_orphans_m exFsClean exHome exGenDir exStagedDir2 exCfg
      exDeployedCl) (pjoin exGenDir "k".toList) =
      some (.file "gk".toList 420) :=
  ⟨(c7_clean_orphans exFsClean exHome exGenDir exStagedDir2 exCfg exDeployedCl
      (by decide)).1 "a".toList "ga".toList 420 (by decide) (by decide)
      (by decide),
   ((c7_clean_orphans exFsClean exHome exGenDir exStagedDir2 exCfg exDeployedCl
      (by decide)).2.1 "a".toList "sa".toList 420 (by decide) (by decide)
      (by decide) (by decide)).1 (by decide),
   ((c7_clean_orphans exFsClean exHome exGenDir exStagedDir2 exCfg exDeployedCl
      (by decide)).2.1 "b".toList "sb".toList 420 (by decide) (by decide)
      (by decide) (by decide)).2 (by decide),
   ((c7_clean_orphans exFsClean exHome exGenDir exStagedDir2 exCfg exDeployedCl
      (by decide)).2.2 "k".toList "gk".toList 420 (by decide)).1 (by decide)
      (by decide)⟩
